import Mathlib

/-!
Verification of the rtree.rs R-tree (src/src/lib.rs) against its
specification.  The Rust source is shallowly embedded: every function below
mirrors one function of the source, with the following standard modelling
choices, each noted at its definition site:

* `f32` coordinates are modelled as exact rationals.  Every coordinate
  operation the claims touch (comparison, componentwise min/max, subtraction,
  multiplication) is exact on the rationals; NaN and infinities are outside
  the spec's scope (the spec declares NaN/infinity handling a non-goal and
  the caller's concern).
* In-place mutation becomes explicit state passing; `ArrayVec` child arrays
  become lists, with the capacity bound MAX_ITEMS kept as a proved invariant.
* Loops over a running index `i` with `swap_remove` are represented by a
  processed prefix `A` (with `|A| = i`) and an unprocessed suffix; a
  `swap_remove` at `i` maps the suffix `c :: B` to `swapFront B`.
* Paths on which the source aborts (`panic`/`expect`, e.g. treating an Item
  as a Parent) return the state unchanged; all of them are unreachable from
  well-formed trees, which is part of what is proved.
* The lazy iterators are modelled by a fueled stepper over the iterator
  state; the fuel passed in is always sufficient (proved), so the fueled
  lists equal the full yielded sequences.
-/

set_option linter.unusedVariables false

/-- Hard fan-out upper bound, from `const MAX_ITEMS: usize = 32`. -/
def MAX_ITEMS : Nat := 32

/-- Hard fan-out lower bound, from `const MIN_ITEMS: usize = 2`. -/
def MIN_ITEMS : Nat := 2

/-- Coordinate axis, from `enum Axis`. -/
inductive Axis where
  | X
  | Y
deriving DecidableEq, Repr

/-- A 2-D point, from `struct Point`; coordinates are exact rationals (see
the header note on `f32`). -/
structure Point where
  x : ℚ
  y : ℚ
deriving DecidableEq, Repr

/-- Projection on an axis, from `Point::on`. -/
def Point.on (self : Point) (axis : Axis) : ℚ :=
  match axis with
  | .X => self.x
  | .Y => self.y

/-- A closed axis-aligned rectangle, from `struct Rect`. -/
structure Rect where
  min : Point
  max : Point
deriving DecidableEq, Repr

/-- A point rect, from `Rect::point`. -/
def Rect.point (x y : ℚ) : Rect := ⟨⟨x, y⟩, ⟨x, y⟩⟩

/-- The source's free function `min` (IEEE `<` selects the first argument). -/
def fmin (a b : ℚ) : ℚ := if a < b then a else b

/-- The source's free function `max` (IEEE `>` selects the first argument). -/
def fmax (a b : ℚ) : ℚ := if a > b then a else b

/-- Widen `self` to contain `rect`, from `Rect::expand` (four independent
conditional field updates). -/
def Rect.expand (self rect : Rect) : Rect :=
  { min := { x := if rect.min.x < self.min.x then rect.min.x else self.min.x
           , y := if rect.min.y < self.min.y then rect.min.y else self.min.y }
  , max := { x := if rect.max.x > self.max.x then rect.max.x else self.max.x
           , y := if rect.max.y > self.max.y then rect.max.y else self.max.y } }

/-- The split axis, from `Rect::largest_axis`: Y on a strictly taller rect,
X otherwise (ties go to X). -/
def Rect.largest_axis (self : Rect) : Axis :=
  if self.max.y - self.min.y > self.max.x - self.min.x then .Y else .X

/-- Closed-interval intersection test, from `Rect::intersects`: touching
edges count as intersecting. -/
def Rect.intersects (self rect : Rect) : Bool :=
  if rect.min.x > self.max.x ∨ rect.max.x < self.min.x then false
  else if rect.min.y > self.max.y ∨ rect.max.y < self.min.y then false
  else true

/-- Edge test, from `Rect::on_edge`: negated-strict comparisons, so touching
an edge counts. -/
def Rect.on_edge (self rect : Rect) : Bool :=
  if ¬(rect.min.x > self.min.x) ∨ ¬(rect.max.x < self.max.x) then true
  else if ¬(rect.min.y > self.min.y) ∨ ¬(rect.max.y < self.max.y) then true
  else false

/-- Area, from `Rect::area`. -/
def Rect.area (self : Rect) : ℚ :=
  (self.max.x - self.min.x) * (self.max.y - self.min.y)

/-- Area of the bounding rect of the union, from `Rect::unioned_area`. -/
def Rect.unioned_area (self rect : Rect) : ℚ :=
  (fmax self.max.x rect.max.x - fmin self.min.x rect.min.x) *
    (fmax self.max.y rect.max.y - fmin self.min.y rect.min.y)

/-- Squared box distance, from `Rect::box_dist`; negative separations are
squared without clamping, exactly as in the source. -/
def Rect.box_dist (self rect : Rect) : ℚ :=
  let x := fmax self.min.x rect.min.x - fmin self.max.x rect.max.x
  let y := fmax self.min.y rect.min.y - fmin self.max.y rect.max.y
  x * x + y * y

/-- A tree node, from `enum Node`: a leaf `Item` (rect plus payload) or an
interior `Parent` (rect plus child array).  The child array (an `ArrayVec`
of capacity MAX_ITEMS obtained from the allocator) is a list here; the
allocator only provides storage and has no observable effect. -/
inductive Node (T : Type) where
  | item (rect : Rect) (data : T)
  | parent (rect : Rect) (nodes : List (Node T))

/-- The rect of either node variant, from `Node::rect`. -/
def Node.rect {T : Type} : Node T → Rect
  | .item r _ => r
  | .parent r _ => r

mutual
/-- Entries of a subtree in depth-first child order (the order `scan`
visits). -/
def entriesN {T : Type} : Node T → List (Rect × T)
  | .item r d => [(r, d)]
  | .parent _ ns => entriesL ns
/-- Entries under a child list in depth-first order. -/
def entriesL {T : Type} : List (Node T) → List (Rect × T)
  | [] => []
  | n :: ns => entriesN n ++ entriesL ns
end

mutual
/-- Weight of a node, used as iterator fuel and as a termination measure. -/
def nodeSize {T : Type} : Node T → Nat
  | .item _ _ => 1
  | .parent _ ns => 2 + listSize ns
/-- Weight of a child list. -/
def listSize {T : Type} : List (Node T) → Nat
  | [] => 0
  | n :: ns => nodeSize n + listSize ns
end

/-- Insertion into a list sorted by an ℚ key; helper for `sortByKey`. -/
def insertSorted {α : Type} (key : α → ℚ) (x : α) : List α → List α
  | [] => [x]
  | y :: ys => if key x ≤ key y then x :: y :: ys else y :: insertSorted key x ys

/-- Sorting by an ℚ key.  The source calls `sort_unstable_by_key` with the
`Ordered` wrapper, whose comparison on the rationals coincides with the
standard order; the order among equal keys is unspecified in the source
(unstable sort) and no claim depends on it, so a deterministic sort is
used. -/
def sortByKey {α : Type} (key : α → ℚ) : List α → List α
  | [] => []
  | x :: xs => insertSorted key x (sortByKey key xs)

/-- Effect of `ArrayVec::swap_remove` at index `i` on the part of the vector
after `i`: with the vector split as `A ++ c :: B` (where `|A| = i`), the
element `c` is removed and the vector's last element takes its place, so
`c :: B` becomes `swapFront B` and the prefix `A` is untouched. -/
def swapFront {α : Type} : List α → List α
  | [] => []
  | y :: ys => (y :: ys).getLast (by simp) :: (y :: ys).dropLast

/-- The partition loop of `Parent::split_largest_axis_edge_snap`: the running
index advances past children that stay left (`min < max` strictly, distances
to the low/high edge on the split axis); every other child — ties included —
is swap-removed into the right vector.  The running index is represented by
the processed prefix `A`; `B` is the rest of the left vector and `R` the
right vector built so far. -/
def splitPart {T : Type} (rect : Rect) (axis : Axis) :
    List (Node T) → List (Node T) → List (Node T) → List (Node T) × List (Node T)
  | A, [], R => (A, R)
  | A, c :: B, R =>
      if c.rect.min.on axis - rect.min.on axis < rect.max.on axis - c.rect.max.on axis then
        splitPart rect axis (A ++ [c]) B R
      else
        splitPart rect axis A (swapFront B) (R ++ [c])
termination_by A B R => B.length
decreasing_by
  · simp
  · cases B <;> simp [swapFront]

/-- The rebalancing loop of the split: while the first vector is short of
MIN_ITEMS, pop the last element of the second vector and push it onto the
first.  The source's `pop().unwrap()` aborts on an empty second vector; that
branch returns the state unchanged here and is unreachable from a split of a
full parent. -/
def popPush {T : Type} (l r : List (Node T)) : List (Node T) × List (Node T) :=
  if l.length < MIN_ITEMS then
    match r.getLast? with
    | none => (l, r)
    | some last => popPush (l ++ [last]) r.dropLast
  else (l, r)
termination_by MIN_ITEMS - l.length
decreasing_by simp; omega

/-- Recompute a parent's bounding rect from its children, from
`Parent::recalc`: an empty parent is left unchanged, otherwise the fold of
`expand` over the children's rects seeded with the first child's rect. -/
def recalcRect {T : Type} (old : Rect) (ns : List (Node T)) : Rect :=
  match ns with
  | [] => old
  | n :: rest => rest.foldl (fun acc m => acc.expand m.rect) n.rect

/-- The recomputed union of a nonempty child list (the value `recalc`
assigns); on the empty list a degenerate zero rect. -/
def unionRect {T : Type} : List (Node T) → Rect
  | [] => ⟨⟨0, 0⟩, ⟨0, 0⟩⟩
  | n :: rest => rest.foldl (fun acc m => acc.expand m.rect) n.rect

/-- `Parent::split_largest_axis_edge_snap` on a parent `(rect, ns)`:
partition along the largest axis of `rect`; if a side is short of MIN_ITEMS,
sort the other side ascending by the relevant edge coordinate and pop its
largest elements across until the short side reaches MIN_ITEMS; recompute
both rects from scratch and sort both sides by `rect.min.x`.  Returns
(left, right); the source leaves left in place and returns right. -/
def splitLAES {T : Type} (rect : Rect) (ns : List (Node T)) :
    (Rect × List (Node T)) × (Rect × List (Node T)) :=
  let axis := rect.largest_axis
  let p := splitPart rect axis [] ns []
  let lr :=
    if p.1.length < MIN_ITEMS then
      popPush p.1 (sortByKey (fun n => n.rect.min.on axis) p.2)
    else if p.2.length < MIN_ITEMS then
      let q := popPush p.2 (sortByKey (fun n => n.rect.max.on axis) p.1)
      (q.2, q.1)
    else p
  ((recalcRect rect lr.1, sortByKey (fun n => n.rect.min.x) lr.1),
   (recalcRect rect lr.2, sortByKey (fun n => n.rect.min.x) lr.2))

/-- The scan state of `Parent::choose_least_enlargement`: current index,
index of the best child so far and its delta and area keys. -/
def chooseLEGo {T : Type} (r : Rect) :
    List (Node T) → Nat → Nat → ℚ → ℚ → Nat
  | [], _, best, _, _ => best
  | n :: rest, i, best, bestDelta, bestArea =>
      let area := n.rect.area
      let delta := n.rect.unioned_area r - area
      if delta < bestDelta ∨ (delta = bestDelta ∧ area < bestArea) then
        chooseLEGo r rest (i + 1) i delta area
      else
        chooseLEGo r rest (i + 1) best bestDelta bestArea

/-- Index of the child picked by `Parent::choose_least_enlargement`: least
enlargement `unioned_area - area`, ties broken by strictly smaller area, the
first candidate winning otherwise.  The source aborts (`expect`) on an empty
parent; index 0 is returned here and the case is unreachable from well-formed
trees. -/
def chooseLE {T : Type} (r : Rect) : List (Node T) → Nat
  | [] => 0
  | n :: rest =>
      chooseLEGo r rest 1 0 (n.rect.unioned_area r - n.rect.area) n.rect.area

/-- `Parent::insert` on the parent state `(rect, ns)` at the given height:
at height 0 push a new leaf item; otherwise recurse into the
least-enlargement child and, if that child came back full (MAX_ITEMS
children), split it in place and push the returned right sibling.  In either
case expand this parent's rect by the inserted rect.  The source's
`else return` when the chosen child is not a Parent returns the state
unchanged (unreachable from well-formed trees). -/
def insertP {T : Type} (r : Rect) (d : T) : Nat → Rect × List (Node T) → Rect × List (Node T)
  | 0, (rect, ns) => (rect.expand r, ns ++ [Node.item r d])
  | h + 1, (rect, ns) =>
      let i := chooseLE r ns
      match ns[i]? with
      | some (Node.parent crect cns) =>
          let c := insertP r d h (crect, cns)
          if c.2.length = MAX_ITEMS then
            let lr := splitLAES c.1 c.2
            (rect.expand r,
             (ns.set i (Node.parent lr.1.1 lr.1.2)) ++ [Node.parent lr.2.1 lr.2.2])
          else
            (rect.expand r, ns.set i (Node.parent c.1 c.2))
      | _ => (rect, ns)

/-- The tree facade, from `struct RTree`: optional root node, entry count,
and height (interior levels above the leaf parents).  The allocator handle is
dropped (storage only). -/
structure RTree (T : Type) where
  root : Option (Node T)
  length : Nat
  height : Nat

/-- `RTree::new`. -/
def RTree.empty {T : Type} : RTree T := ⟨none, 0, 0⟩

/-- `RTree::len`. -/
def RTree.len {T : Type} (t : RTree T) : Nat := t.length

/-- `RTree::insert`: materialize the root as an empty parent with the
inserted rect if absent, insert at the root with depth = height, and if the
root is then full, split it, push the old root and the right sibling under a
fresh root carrying the old root's rect, and bump the height.  The length
always grows by one.  An `Item` root cannot arise; the source would abort in
`nodes_mut` and the tree is returned unchanged here. -/
def RTree.insert {T : Type} (t : RTree T) (r : Rect) (d : T) : RTree T :=
  match t.root.getD (Node.parent r []) with
  | Node.item _ _ => t
  | Node.parent rect ns =>
      let p := insertP r d t.height (rect, ns)
      if p.2.length = MAX_ITEMS then
        let lr := splitLAES p.1 p.2
        { root := some (Node.parent p.1
            [Node.parent lr.1.1 lr.1.2, Node.parent lr.2.1 lr.2.2]),
          length := t.length + 1, height := t.height + 1 }
      else
        { root := some (Node.parent p.1 p.2),
          length := t.length + 1, height := t.height }

mutual
/-- Entries of one node in the order `Parent::flatten_into` pushes them onto
the reinsert list (the loop pops children from the back of the vector). -/
def flattenN {T : Type} : Node T → List (Rect × T)
  | .item r d => [(r, d)]
  | .parent _ ns => flattenL ns
/-- Entries `flatten_into` pushes for a child vector: last child first. -/
def flattenL {T : Type} : List (Node T) → List (Rect × T)
  | [] => []
  | n :: ns => flattenL ns ++ flattenN n
end

/-- The leaf scan of `Parent::remove` (`height == 0`): find the first child
whose payload equals `data` (only the payload is compared at leaf level) and
swap-remove it; if the removed rect touched this parent's edge, recompute the
rect.  `A` is the processed prefix (the running index is `|A|`), the second
list the rest.  A non-Item child is skipped here; on it the source aborts in
`Node::item`, and well-formed trees have only items at leaf level. -/
def removeLeafGo {T : Type} [DecidableEq T] (rect : Rect) (d : T) :
    List (Node T) → List (Node T) → (Rect × List (Node T)) × Option (Rect × T) × Bool
  | A, [] => ((rect, A), none, false)
  | A, c :: B =>
      match c with
      | Node.item ir id =>
          if id = d then
            let ns' := A ++ swapFront B
            let recalced := rect.on_edge ir
            ((if recalced then recalcRect rect ns' else rect, ns'), some (ir, id), recalced)
          else removeLeafGo rect d (A ++ [Node.item ir id]) B
      | Node.parent cr cn => removeLeafGo rect d (A ++ [Node.parent cr cn]) B

mutual
/-- `Parent::remove` on the parent state `(rect, ns)` at the given height:
the leaf scan at height 0, the interior loop otherwise.  Returns the new
parent state, the items appended to the shared reinsert list, the removed
entry, and the recalc flag. -/
def removeP {T : Type} [DecidableEq T] (q : Rect) (d : T) :
    Nat → Rect → List (Node T) →
    (Rect × List (Node T)) × List (Rect × T) × Option (Rect × T) × Bool
  | 0, rect, ns =>
      let res := removeLeafGo rect d [] ns
      (res.1, [], res.2.1, res.2.2)
  | h + 1, rect, ns => removeGo q d h rect [] ns
termination_by h rect ns => (h, 0)
decreasing_by
  all_goals simp_wf
  all_goals first
    | exact Prod.Lex.left _ _ (by omega)
    | exact Prod.Lex.right _ (by omega)

/-- The interior loop of `Parent::remove`: skip children whose rect does not
intersect the query (and non-Parent children, on which the source aborts;
unreachable from well-formed trees); recurse into the rest in order and keep
going while nothing was removed.  After the first hit: if the child
underflowed (fewer than MIN_ITEMS children), swap-remove it and flatten its
entries onto the reinsert list, turning the recalc flag on if the dissolved
child's rect touched this parent's edge; finally recompute this parent's rect
if the flag is on.  `A` is the processed prefix, the second list the rest. -/
def removeGo {T : Type} [DecidableEq T] (q : Rect) (d : T) (h : Nat) (rect : Rect) :
    List (Node T) → List (Node T) →
    (Rect × List (Node T)) × List (Rect × T) × Option (Rect × T) × Bool
  | A, [] => ((rect, A), [], none, false)
  | A, c :: B =>
      match c with
      | Node.item ir id => removeGo q d h rect (A ++ [Node.item ir id]) B
      | Node.parent crect cns =>
          if crect.intersects q then
            let res := removeP q d h crect cns
            match res.2.2.1 with
            | none => removeGo q d h rect (A ++ [Node.parent res.1.1 res.1.2]) B
            | some it =>
                if res.1.2.length < MIN_ITEMS then
                  let ns' := A ++ swapFront B
                  let rein := res.2.1 ++ flattenL res.1.2
                  let recalced := res.2.2.2 || rect.on_edge res.1.1
                  ((if recalced then recalcRect rect ns' else rect, ns'),
                   rein, some it, recalced)
                else
                  let ns' := A ++ Node.parent res.1.1 res.1.2 :: B
                  ((if res.2.2.2 then recalcRect rect ns' else rect, ns'),
                   res.2.1, some it, res.2.2.2)
          else removeGo q d h rect (A ++ [Node.parent crect cns]) B
termination_by A B => (h, B.length + 1)
decreasing_by
  all_goals simp_wf
  all_goals first
    | exact Prod.Lex.left _ _ (by omega)
    | exact Prod.Lex.right _ (by omega)
end

/-- The reinsert drain at the end of `RTree::remove`: pop entries from the
back of the reinsert list and feed each to the public insert. -/
def reinsertAll {T : Type} (t : RTree T) (l : List (Rect × T)) : RTree T :=
  l.reverse.foldl (fun acc e => acc.insert e.1 e.2) t

/-- `RTree::remove`: run the recursive removal from the root with depth =
height.  On a miss return the tree (unchanged, which is proved) and nothing.
On a hit: subtract `1 + |reinsert|` from the length; drop the root if the
length reached 0; else collapse a single-child root when the height is
positive (the child becomes the root, its rect is recomputed, the height
drops); else recompute the root's rect if flagged; finally drain the
reinsert list through the public insert and return the removed entry.
An `Item` root or a collapse onto an `Item` child would abort in the source
(`nodes_mut`); both return reasonable states here and are unreachable from
well-formed trees. -/
def RTree.remove {T : Type} [DecidableEq T] (t : RTree T) (r : Rect) (d : T) :
    RTree T × Option (Rect × T) :=
  match t.root with
  | none => (t, none)
  | some (Node.item a b) => (t, none)
  | some (Node.parent rect ns) =>
      let res := removeP r d t.height rect ns
      match res.2.2.1 with
      | none => ({ t with root := some (Node.parent res.1.1 res.1.2) }, none)
      | some it =>
          let rein := res.2.1
          let len' := t.length - (rein.length + 1)
          let t1 : RTree T :=
            if len' = 0 then { root := none, length := len', height := t.height }
            else if 0 < t.height ∧ res.1.2.length = 1 then
              match res.1.2.getLast? with
              | some (Node.parent nrect nns) =>
                  { root := some (Node.parent (recalcRect nrect nns) nns),
                    length := len', height := t.height - 1 }
              | some (Node.item a b) =>
                  { root := some (Node.item a b), length := len', height := t.height - 1 }
              | none =>
                  { root := some (Node.parent res.1.1 res.1.2),
                    length := len', height := t.height }
            else if res.2.2.2 then
              { root := some (Node.parent (recalcRect res.1.1 res.1.2) res.1.2),
                length := len', height := t.height }
            else
              { root := some (Node.parent res.1.1 res.1.2),
                length := len', height := t.height }
          (reinsertAll t1 rein, some it)

/-- The stack built by `StackNode::new_stack`: the root's child iterator, or
the empty stack when there is no root.  Each frame is the not-yet-visited
suffix of one parent's child list, innermost frame first.  An `Item` root
(impossible) gives the empty stack, where the source aborts in
`Node::nodes`. -/
def initStack {T : Type} : Option (Node T) → List (List (Node T))
  | some (Node.parent _ ns) => [ns]
  | _ => []

/-- Fuel bound for the iterator steppers: one unit per loop iteration. -/
def framesMeasure {T : Type} : List (List (Node T)) → Nat
  | [] => 0
  | f :: rest => 1 + listSize f + framesMeasure rest

/-- Fueled unfolding of `ScanIterator::next`: an exhausted frame pops, an
item yields, a parent pushes its child iterator.  One fuel unit is one loop
iteration; the fuel used below always suffices (proved), so this is the full
sequence the lazy iterator yields across all `next` calls. -/
def scanSteps {T : Type} : Nat → List (List (Node T)) → List (Rect × T)
  | 0, _ => []
  | _ + 1, [] => []
  | f + 1, [] :: rest => scanSteps f rest
  | f + 1, (Node.item r d :: ns) :: rest => (r, d) :: scanSteps f (ns :: rest)
  | f + 1, (Node.parent _ cns :: ns) :: rest => scanSteps f (cns :: ns :: rest)

/-- All records yielded by `RTree::iter` (the scan iterator). -/
def scanList {T : Type} (t : RTree T) : List (Rect × T) :=
  scanSteps (framesMeasure (initStack t.root)) (initStack t.root)

/-- Fueled unfolding of `SearchIterator::next`: the scan stepper with the
intersection guard in front of both the yield and the descent. -/
def searchSteps {T : Type} (q : Rect) : Nat → List (List (Node T)) → List (Rect × T)
  | 0, _ => []
  | _ + 1, [] => []
  | f + 1, [] :: rest => searchSteps q f rest
  | f + 1, (n :: ns) :: rest =>
      if n.rect.intersects q then
        match n with
        | Node.item r d => (r, d) :: searchSteps q f (ns :: rest)
        | Node.parent _ cns => searchSteps q f (cns :: ns :: rest)
      else searchSteps q f (ns :: rest)

/-- All records yielded by `RTree::search`. -/
def searchList {T : Type} (t : RTree T) (q : Rect) : List (Rect × T) :=
  searchSteps q (framesMeasure (initStack t.root)) (initStack t.root)

mutual
/-- One guarded step of `Parent::search_flat` on a hit: push the item, or
recurse into the parent. -/
def searchFlatHit {T : Type} (q : Rect) : Node T → List (Rect × T)
  | Node.item r d => [(r, d)]
  | Node.parent _ cns => searchFlatL q cns
/-- `Parent::search_flat`: iterate the children, and on each whose rect
intersects the query, push the item or recurse into the parent. -/
def searchFlatL {T : Type} (q : Rect) : List (Node T) → List (Rect × T)
  | [] => []
  | n :: ns =>
      (if n.rect.intersects q then searchFlatHit q n else []) ++ searchFlatL q ns
end

/-- `RTree::search_flat`: the collector run on the root's children. -/
def searchFlatTree {T : Type} (t : RTree T) (q : Rect) : List (Rect × T) :=
  match t.root with
  | some (Node.parent _ ns) => searchFlatL q ns
  | _ => []

/-- Distance assigned to a node when `NearbyIterator::next` enqueues it: the
caller's function on the node's rect and, for items, the payload. -/
def nearbyKey {T : Type} (distF : Rect → Option T → ℚ) : Node T → ℚ
  | Node.item r d => distF r (some d)
  | Node.parent r _ => distF r none

/-- The element `BinaryHeap::pop` returns on the source's queue: the standard
heap sifts with the `<=` and `>=` operators, which dispatch to `NearbyItem`'s
`PartialOrd` — the REVERSED comparison on `dist` — so the popped element is
the one with the smallest distance.  Among equal distances the heap's choice
is unspecified; the model keeps the earliest, and no claim depends on ties. -/
def popMinQ {T : Type} : List (ℚ × Node T) → Option ((ℚ × Node T) × List (ℚ × Node T))
  | [] => none
  | x :: rest =>
      match popMinQ rest with
      | none => some (x, [])
      | some (m, rest') => if m.1 < x.1 then some (m, x :: rest') else some (x, rest)

/-- Fueled unfolding of `NearbyIterator::next`: pop from the queue; yield an
item; expand a parent by enqueuing all its children with their computed
distances. -/
def nearbySteps {T : Type} (distF : Rect → Option T → ℚ) :
    Nat → List (ℚ × Node T) → List (Rect × T × ℚ)
  | 0, _ => []
  | f + 1, queue =>
      match popMinQ queue with
      | none => []
      | some ((dist, Node.item r d), rest) => (r, d, dist) :: nearbySteps distF f rest
      | some ((_, Node.parent _ cns), rest) =>
          nearbySteps distF f (rest ++ cns.map (fun n => (nearbyKey distF n, n)))

/-- Fuel bound for the nearby stepper. -/
def queueMeasure {T : Type} : List (ℚ × Node T) → Nat
  | [] => 0
  | x :: rest => nodeSize x.2 + queueMeasure rest

/-- All records yielded by `RTree::nearby`: the root is enqueued with
distance 0 (`Default::default()`). -/
def nearbyList {T : Type} (t : RTree T) (distF : Rect → Option T → ℚ) :
    List (Rect × T × ℚ) :=
  match t.root with
  | none => []
  | some root => nearbySteps distF (queueMeasure [((0 : ℚ), root)]) [((0 : ℚ), root)]

mutual
/-- Hereditary rect accuracy below a node: every parent node in the subtree
carries the min/max union of its children.  This is the part of
well-formedness the nearby ordering argument uses; unlike `WfChild` it puts
no bound on child counts, so it also holds of the root. -/
def UnionOkN {T : Type} : Node T → Prop
  | .item _ _ => True
  | .parent r ns => r = unionRect ns ∧ UnionOkL ns
/-- Hereditary rect accuracy below each node of a child list. -/
def UnionOkL {T : Type} : List (Node T) → Prop
  | [] => True
  | n :: ns => UnionOkN n ∧ UnionOkL ns
end

/-- The entries reachable from the root (the Entry nodes of the tree). -/
def entriesOfTree {T : Type} (t : RTree T) : List (Rect × T) :=
  match t.root with
  | none => []
  | some n => entriesN n

/-- The entries below an iterator stack, frame by frame: what the scan loop
still has to visit. -/
def entriesLL {T : Type} : List (List (Node T)) → List (Rect × T)
  | [] => []
  | f :: rest => entriesL f ++ entriesLL rest

/-- The search collector run frame by frame over an iterator stack. -/
def searchFlatLL {T : Type} (q : Rect) : List (List (Node T)) → List (Rect × T)
  | [] => []
  | f :: rest => searchFlatL q f ++ searchFlatLL q rest

/-- Containment of rectangles, componentwise. -/
def Rect.holds (self r : Rect) : Prop :=
  self.min.x ≤ r.min.x ∧ r.max.x ≤ self.max.x ∧
    self.min.y ≤ r.min.y ∧ r.max.y ≤ self.max.y

/-- A geometrically valid rect: min below max on both axes (point rects
included). -/
def Rect.valid (r : Rect) : Prop := r.min.x ≤ r.max.x ∧ r.min.y ≤ r.max.y

/-- Structural well-formedness of a non-root node at a given level below its
parent's height: items sit exactly at level 0; a parent's rect is the
recomputed union of its children, its child count lies in
[MIN_ITEMS, MAX_ITEMS - 1] (a parent that reaches MAX_ITEMS is split by its
caller before the public operation returns), and its children are
well-formed one level down. -/
def WfChild {T : Type} : Nat → Node T → Prop
  | 0, Node.item _ _ => True
  | _ + 1, Node.item _ _ => False
  | 0, Node.parent _ _ => False
  | k + 1, Node.parent rect ns =>
      rect = unionRect ns ∧ MIN_ITEMS ≤ ns.length ∧ ns.length ≤ MAX_ITEMS - 1 ∧
        ∀ n ∈ ns, WfChild k n

/-- Well-formedness of the whole tree: the spec's structural invariants plus
the bookkeeping facts needed to make them inductive over the public
operations (an absent root forces height and length 0; a root with positive
height keeps at least two children; the length counts the entries). -/
def WfTree {T : Type} (t : RTree T) : Prop :=
  match t.root with
  | none => t.height = 0 ∧ t.length = 0
  | some (Node.item _ _) => False
  | some (Node.parent rect ns) =>
      rect = unionRect ns ∧ ns ≠ [] ∧ ns.length ≤ MAX_ITEMS - 1 ∧
        (0 < t.height → MIN_ITEMS ≤ ns.length) ∧
        (∀ n ∈ ns, WfChild t.height n) ∧ t.length = (entriesL ns).length

/-- Trees reachable from `RTree::new` by the public insert and remove. -/
inductive Reachable {T : Type} [DecidableEq T] : RTree T → Prop where
  | empty : Reachable RTree.empty
  | insert {t : RTree T} (r : Rect) (d : T) : Reachable t → Reachable (t.insert r d)
  | remove {t : RTree T} (r : Rect) (d : T) : Reachable t → Reachable (t.remove r d).1

/-- The parent nodes present in a tree: the root, and recursively every
parent child of a present parent. -/
inductive ParentIn {T : Type} : RTree T → Rect → List (Node T) → Prop where
  | root {t : RTree T} {r : Rect} {ns : List (Node T)} :
      t.root = some (Node.parent r ns) → ParentIn t r ns
  | child {t : RTree T} {r : Rect} {ns : List (Node T)} {r' : Rect}
      {ns' : List (Node T)} :
      ParentIn t r ns → Node.parent r' ns' ∈ ns → ParentIn t r' ns'

/-- Mathematical minimum of a rational seed and a list (left fold). -/
def listMin (a : ℚ) (l : List ℚ) : ℚ := l.foldl min a

/-- Mathematical maximum of a rational seed and a list (left fold). -/
def listMax (a : ℚ) (l : List ℚ) : ℚ := l.foldl max a

/-- The stay-left test of the split partition loop: the child's distance from
the low edge on the split axis is strictly below its distance from the high
edge. -/
def staysLeft {T : Type} (rect : Rect) (axis : Axis) (c : Node T) : Prop :=
  c.rect.min.on axis - rect.min.on axis < rect.max.on axis - c.rect.max.on axis

instance {T : Type} (rect : Rect) (axis : Axis) :
    DecidablePred (@staysLeft T rect axis) :=
  fun c => inferInstanceAs (Decidable (_ < _))

/-- Scenario D input: the single-entry tree insert `(point(0,0), 1)`. -/
def scenD : RTree ℕ := RTree.empty.insert (Rect.point 0 0) 1

/-- Scenario E input: points `(0,0), (3,0), (0,4), (6,8)` with payloads
0, 1, 2, 3 standing for A, B, C, D. -/
def scenE : RTree ℕ :=
  ((((RTree.empty.insert (Rect.point 0 0) 0).insert (Rect.point 3 0) 1).insert
      (Rect.point 0 4) 2).insert (Rect.point 6 8) 3)

/-- Scenario E distance function: squared box distance to the origin. -/
def scenEDist (r : Rect) (d : Option ℕ) : ℚ := r.box_dist (Rect.point 0 0)

/-- Scenario F input: the tree with the single entry
`(rect(min=(0,0),max=(1,1)), X)` with X rendered as payload 10. -/
def scenF : RTree ℕ := RTree.empty.insert ⟨⟨0, 0⟩, ⟨1, 1⟩⟩ 10

/-- Scenario F query rect `rect(min=(1,1),max=(2,2))`. -/
def scenFq : Rect := ⟨⟨1, 1⟩, ⟨2, 2⟩⟩

/-- A 33-entry tree (point entries at `(i, i)` for `i = 0..32`), large enough
to have split once (height 1). -/
def tree33 : RTree ℕ :=
  (List.range 33).foldl
    (fun (t : RTree ℕ) (i : ℕ) => t.insert (Rect.point (i : ℚ) (i : ℚ)) i) RTree.empty

/-- An inverted rect (min above max on both axes), used to exhibit remove
misses after an insert of the very same rect. -/
def invRect : Rect := ⟨⟨50, 50⟩, ⟨0, 0⟩⟩

/-- A full parent's child vector: 32 point items, input for the split claim. -/
def split32 : List (Node ℕ) :=
  (List.range 32).map fun i : ℕ => Node.item (Rect.point (i : ℚ) (i : ℚ)) i

/-! Fold lemmas for `listMin` and `listMax`. -/

theorem foldl_min_comm (l : List ℚ) : ∀ a x : ℚ, l.foldl min (min a x) = min x (l.foldl min a) := by
  induction l with
  | nil => intro a x; simp [min_comm]
  | cons y l ih =>
      intro a x
      simp only [List.foldl_cons]
      rw [show min (min a x) y = min (min a y) x by
        rw [min_assoc, min_assoc, min_comm x y], ih (min a y) x]

theorem foldl_max_comm (l : List ℚ) : ∀ a x : ℚ, l.foldl max (max a x) = max x (l.foldl max a) := by
  induction l with
  | nil => intro a x; simp [max_comm]
  | cons y l ih =>
      intro a x
      simp only [List.foldl_cons]
      rw [show max (max a x) y = max (max a y) x by
        rw [max_assoc, max_assoc, max_comm x y], ih (max a y) x]

theorem listMin_cons (a x : ℚ) (l : List ℚ) : listMin a (x :: l) = min x (listMin a l) := by
  simp only [listMin, List.foldl_cons]
  exact foldl_min_comm l a x

theorem listMax_cons (a x : ℚ) (l : List ℚ) : listMax a (x :: l) = max x (listMax a l) := by
  simp only [listMax, List.foldl_cons]
  exact foldl_max_comm l a x

theorem listMin_le_seed (a : ℚ) (l : List ℚ) : listMin a l ≤ a := by
  induction l with
  | nil => simp [listMin]
  | cons x l ih => rw [listMin_cons]; exact le_trans (min_le_right _ _) ih

theorem listMin_le_mem (a : ℚ) (l : List ℚ) : ∀ b ∈ l, listMin a l ≤ b := by
  induction l with
  | nil => simp
  | cons x l ih =>
      intro b hb
      rw [listMin_cons]
      rcases List.mem_cons.mp hb with h | h
      · exact h ▸ min_le_left _ _
      · exact le_trans (min_le_right _ _) (ih b h)

theorem listMin_self_mem (a : ℚ) (l : List ℚ) : listMin a l ∈ a :: l := by
  induction l with
  | nil => simp [listMin]
  | cons x l ih =>
      rw [listMin_cons]
      rcases min_cases x (listMin a l) with ⟨h, _⟩ | ⟨h, _⟩
      · rw [h]; simp
      · rw [h]
        rcases List.mem_cons.mp ih with h' | h'
        · rw [h']; simp
        · exact List.mem_cons_of_mem _ (List.mem_cons_of_mem _ h')

theorem listMax_seed_le (a : ℚ) (l : List ℚ) : a ≤ listMax a l := by
  induction l with
  | nil => simp [listMax]
  | cons x l ih => rw [listMax_cons]; exact le_trans ih (le_max_right _ _)

theorem listMax_mem_le (a : ℚ) (l : List ℚ) : ∀ b ∈ l, b ≤ listMax a l := by
  induction l with
  | nil => simp
  | cons x l ih =>
      intro b hb
      rw [listMax_cons]
      rcases List.mem_cons.mp hb with h | h
      · exact h ▸ le_max_left _ _
      · exact le_trans (ih b h) (le_max_right _ _)

theorem listMax_self_mem (a : ℚ) (l : List ℚ) : listMax a l ∈ a :: l := by
  induction l with
  | nil => simp [listMax]
  | cons x l ih =>
      rw [listMax_cons]
      rcases max_cases x (listMax a l) with ⟨h, _⟩ | ⟨h, _⟩
      · rw [h]; simp
      · rw [h]
        rcases List.mem_cons.mp ih with h' | h'
        · rw [h']; simp
        · exact List.mem_cons_of_mem _ (List.mem_cons_of_mem _ h')

theorem listMin_eq_of_perm {a b : ℚ} {l m : List ℚ} (h : (a :: l).Perm (b :: m)) :
    listMin a l = listMin b m := by
  apply le_antisymm
  · rcases List.mem_cons.mp (h.mem_iff.mpr (listMin_self_mem b m)) with h' | h'
    · exact h' ▸ listMin_le_seed a l
    · exact listMin_le_mem a l _ h'
  · rcases List.mem_cons.mp (h.mem_iff.mp (listMin_self_mem a l)) with h' | h'
    · exact h' ▸ listMin_le_seed b m
    · exact listMin_le_mem b m _ h'

theorem listMax_eq_of_perm {a b : ℚ} {l m : List ℚ} (h : (a :: l).Perm (b :: m)) :
    listMax a l = listMax b m := by
  apply le_antisymm
  · rcases List.mem_cons.mp (h.mem_iff.mp (listMax_self_mem a l)) with h' | h'
    · exact h' ▸ listMax_seed_le b m
    · exact listMax_mem_le b m _ h'
  · rcases List.mem_cons.mp (h.mem_iff.mpr (listMax_self_mem b m)) with h' | h'
    · exact h' ▸ listMax_seed_le a l
    · exact listMax_mem_le a l _ h'

theorem listMin_erase {a b a' : ℚ} {l m : List ℚ} (h : (a :: l).Perm (b :: a' :: m))
    (hgt : listMin a l < b) : listMin a' m = listMin a l := by
  have h3 : listMin a l = listMin a' (b :: m) :=
    listMin_eq_of_perm (h.trans (List.Perm.swap a' b m))
  rw [listMin_cons] at h3
  rcases min_cases b (listMin a' m) with ⟨he, _⟩ | ⟨he, _⟩
  · rw [he] at h3
    rw [h3] at hgt
    exact absurd hgt (lt_irrefl b)
  · rw [he] at h3
    exact h3.symm

theorem listMax_erase {a b a' : ℚ} {l m : List ℚ} (h : (a :: l).Perm (b :: a' :: m))
    (hlt : b < listMax a l) : listMax a' m = listMax a l := by
  have h3 : listMax a l = listMax a' (b :: m) :=
    listMax_eq_of_perm (h.trans (List.Perm.swap a' b m))
  rw [listMax_cons] at h3
  rcases max_cases b (listMax a' m) with ⟨he, _⟩ | ⟨he, _⟩
  · rw [he] at h3
    rw [h3] at hlt
    exact absurd hlt (lt_irrefl b)
  · rw [he] at h3
    exact h3.symm

/-! Geometry characterizations. -/

theorem expand_eq (a b : Rect) :
    a.expand b = ⟨⟨min b.min.x a.min.x, min b.min.y a.min.y⟩,
                  ⟨max b.max.x a.max.x, max b.max.y a.max.y⟩⟩ := by
  simp only [Rect.expand, min_def, max_def]
  congr 2
  · split_ifs <;> first | rfl | linarith
  · split_ifs <;> first | rfl | linarith
  · split_ifs <;> first | rfl | linarith
  · split_ifs <;> first | rfl | linarith

theorem fmin_eq (a b : ℚ) : fmin a b = min a b := by
  simp only [fmin, min_def]
  split_ifs <;> first | rfl | linarith

theorem fmax_eq (a b : ℚ) : fmax a b = max a b := by
  simp only [fmax, max_def]
  split_ifs <;> first | rfl | linarith

theorem intersects_iff (self rect : Rect) :
    self.intersects rect = true ↔
      rect.min.x ≤ self.max.x ∧ self.min.x ≤ rect.max.x ∧
        rect.min.y ≤ self.max.y ∧ self.min.y ≤ rect.max.y := by
  simp only [Rect.intersects]
  split_ifs with h1 h2
  · simp only [Bool.false_eq_true, false_iff]
    intro ⟨a, b, _, _⟩
    rcases h1 with h | h <;> linarith
  · simp only [Bool.false_eq_true, false_iff]
    intro ⟨_, _, c, e⟩
    rcases h2 with h | h <;> linarith
  · push_neg at h1 h2
    simp only [true_iff]
    exact ⟨h1.1, h1.2, h2.1, h2.2⟩

theorem on_edge_false_iff (self rect : Rect) :
    self.on_edge rect = false ↔
      self.min.x < rect.min.x ∧ rect.max.x < self.max.x ∧
        self.min.y < rect.min.y ∧ rect.max.y < self.max.y := by
  simp only [Rect.on_edge]
  split_ifs with h1 h2
  · simp only [Bool.true_eq_false, false_iff]
    intro ⟨a, b, _, _⟩
    rcases h1 with h | h <;> exact absurd (by linarith) h
  · simp only [Bool.true_eq_false, false_iff]
    intro ⟨_, _, c, e⟩
    rcases h2 with h | h <;> exact absurd (by linarith) h
  · push_neg at h1 h2
    simp only [true_iff]
    exact ⟨h1.1, h1.2, h2.1, h2.2⟩

theorem holds_intersects {R r q : Rect} (hc : R.holds r) (hi : r.intersects q = true) :
    R.intersects q = true := by
  rw [intersects_iff] at hi ⊢
  obtain ⟨c1, c2, c3, c4⟩ := hc
  obtain ⟨i1, i2, i3, i4⟩ := hi
  exact ⟨by linarith, by linarith, by linarith, by linarith⟩

/-! Characterization of `unionRect` through the fold minima and maxima. -/

theorem foldl_expand_eq {T : Type} (ns : List (Node T)) :
    ∀ acc : Rect,
      ns.foldl (fun a m => a.expand m.rect) acc =
        ⟨⟨listMin acc.min.x (ns.map fun m => m.rect.min.x),
          listMin acc.min.y (ns.map fun m => m.rect.min.y)⟩,
         ⟨listMax acc.max.x (ns.map fun m => m.rect.max.x),
          listMax acc.max.y (ns.map fun m => m.rect.max.y)⟩⟩ := by
  induction ns with
  | nil => intro acc; simp [listMin, listMax]
  | cons m ns ih =>
      intro acc
      simp only [List.foldl_cons, List.map_cons]
      rw [ih, expand_eq, listMin_cons, listMin_cons, listMax_cons, listMax_cons]
      simp only [Rect.mk.injEq, Point.mk.injEq]
      refine ⟨⟨?_, ?_⟩, ?_, ?_⟩
      · rw [min_comm m.rect.min.x acc.min.x]
        exact foldl_min_comm _ acc.min.x m.rect.min.x
      · rw [min_comm m.rect.min.y acc.min.y]
        exact foldl_min_comm _ acc.min.y m.rect.min.y
      · rw [max_comm m.rect.max.x acc.max.x]
        exact foldl_max_comm _ acc.max.x m.rect.max.x
      · rw [max_comm m.rect.max.y acc.max.y]
        exact foldl_max_comm _ acc.max.y m.rect.max.y

theorem unionRect_eq {T : Type} (n : Node T) (ns : List (Node T)) :
    unionRect (n :: ns) =
      ⟨⟨listMin n.rect.min.x (ns.map fun m => m.rect.min.x),
        listMin n.rect.min.y (ns.map fun m => m.rect.min.y)⟩,
       ⟨listMax n.rect.max.x (ns.map fun m => m.rect.max.x),
        listMax n.rect.max.y (ns.map fun m => m.rect.max.y)⟩⟩ := by
  simp only [unionRect]
  exact foldl_expand_eq ns n.rect

theorem recalcRect_eq_unionRect {T : Type} (old : Rect) {ns : List (Node T)}
    (h : ns ≠ []) : recalcRect old ns = unionRect ns := by
  cases ns with
  | nil => exact absurd rfl h
  | cons n rest => rfl

theorem unionRect_perm {T : Type} {ns ns' : List (Node T)} (h : ns.Perm ns')
    (hne : ns ≠ []) : unionRect ns = unionRect ns' := by
  cases ns with
  | nil => exact absurd rfl hne
  | cons n rest =>
      cases ns' with
      | nil => exact absurd h.eq_nil (by simp)
      | cons n' rest' =>
          have hm := h.map fun m : Node T => m.rect.min.x
          have hm2 := h.map fun m : Node T => m.rect.min.y
          have hm3 := h.map fun m : Node T => m.rect.max.x
          have hm4 := h.map fun m : Node T => m.rect.max.y
          simp only [List.map_cons] at hm hm2 hm3 hm4
          rw [unionRect_eq, unionRect_eq, listMin_eq_of_perm hm, listMin_eq_of_perm hm2,
            listMax_eq_of_perm hm3, listMax_eq_of_perm hm4]

theorem unionRect_holds {T : Type} {ns : List (Node T)} {n : Node T} (h : n ∈ ns) :
    (unionRect ns).holds n.rect := by
  cases ns with
  | nil => simp at h
  | cons m rest =>
      rw [unionRect_eq]
      rcases List.mem_cons.mp h with h' | h'
      · subst h'
        exact ⟨listMin_le_seed _ _, listMax_seed_le _ _, listMin_le_seed _ _,
          listMax_seed_le _ _⟩
      · exact ⟨listMin_le_mem _ _ _ (List.mem_map_of_mem _ h'),
          listMax_mem_le _ _ _ (List.mem_map_of_mem _ h'),
          listMin_le_mem _ _ _ (List.mem_map_of_mem _ h'),
          listMax_mem_le _ _ _ (List.mem_map_of_mem _ h')⟩

/-! A mutual induction principle for the nested node type, obtained by
strong induction on the weight. -/

theorem one_le_nodeSize {T : Type} (n : Node T) : 1 ≤ nodeSize n := by
  cases n <;> simp [nodeSize] <;> omega

theorem node_mutual_ind {T : Type} {P : Node T → Prop} {Q : List (Node T) → Prop}
    (hitem : ∀ r d, P (Node.item r d))
    (hparent : ∀ r ns, Q ns → P (Node.parent r ns))
    (hnil : Q [])
    (hcons : ∀ n ns, P n → Q ns → Q (n :: ns)) :
    (∀ n, P n) ∧ (∀ ns, Q ns) := by
  have key : ∀ k : Nat, (∀ n : Node T, nodeSize n ≤ k → P n) ∧
      (∀ ns : List (Node T), listSize ns ≤ k → Q ns) := by
    intro k
    induction k with
    | zero =>
        constructor
        · intro n hn
          cases n with
          | item r d => exact hitem r d
          | parent r ns => simp [nodeSize] at hn
        · intro ns hns
          cases ns with
          | nil => exact hnil
          | cons n ns =>
              have := one_le_nodeSize n
              simp [listSize] at hns
              omega
    | succ k ih =>
        have hN : ∀ n : Node T, nodeSize n ≤ k + 1 → P n := by
          intro n hn
          cases n with
          | item r d => exact hitem r d
          | parent r ns =>
              apply hparent
              apply ih.2
              simp only [nodeSize] at hn
              omega
        refine ⟨hN, ?_⟩
        intro ns hns
        cases ns with
        | nil => exact hnil
        | cons n ns =>
            simp only [listSize] at hns
            have h1 := one_le_nodeSize n
            exact hcons n ns (hN n (by omega)) (ih.2 ns (by omega))
  exact ⟨fun n => (key (nodeSize n)).1 n le_rfl, fun ns => (key (listSize ns)).2 ns le_rfl⟩

/-! Entries lemmas. -/

theorem entriesL_append {T : Type} (A B : List (Node T)) :
    entriesL (A ++ B) = entriesL A ++ entriesL B := by
  induction A with
  | nil => simp [entriesL]
  | cons n A ih => simp [entriesL, ih]

theorem entriesL_perm {T : Type} {ns ns' : List (Node T)} (h : ns.Perm ns') :
    (entriesL ns).Perm (entriesL ns') := by
  induction h with
  | nil => exact .refl _
  | cons x h ih => simpa only [entriesL] using ih.append_left (entriesN x)
  | swap x y l =>
      simp only [entriesL, ← List.append_assoc]
      exact (List.perm_append_comm).append_right (entriesL l)
  | trans h1 h2 ih1 ih2 => exact ih1.trans ih2

theorem entriesL_mem {T : Type} {ns : List (Node T)} {e : Rect × T}
    (h : e ∈ entriesL ns) : ∃ n ∈ ns, e ∈ entriesN n := by
  induction ns with
  | nil => simp [entriesL] at h
  | cons n ns ih =>
      simp only [entriesL, List.mem_append] at h
      rcases h with h | h
      · exact ⟨n, by simp, h⟩
      · obtain ⟨m, hm, he⟩ := ih h
        exact ⟨m, List.mem_cons_of_mem _ hm, he⟩

theorem entriesL_mem_of_node {T : Type} {ns : List (Node T)} {n : Node T}
    {e : Rect × T} (hn : n ∈ ns) (he : e ∈ entriesN n) : e ∈ entriesL ns := by
  induction ns with
  | nil => simp at hn
  | cons m ns ih =>
      simp only [entriesL, List.mem_append]
      rcases List.mem_cons.mp hn with h | h
      · exact Or.inl (h ▸ he)
      · exact Or.inr (ih h)

theorem flatten_perm_entries {T : Type} :
    (∀ n : Node T, (flattenN n).Perm (entriesN n)) ∧
      (∀ ns : List (Node T), (flattenL ns).Perm (entriesL ns)) := by
  apply node_mutual_ind
  · intro r d
    exact .refl _
  · intro r ns h
    simpa only [flattenN, entriesN] using h
  · exact .refl _
  · intro n ns hn hns
    simp only [flattenL, entriesL]
    exact (hns.append hn).trans List.perm_append_comm

/-! Lemmas about `swapFront`. -/

theorem swapFront_perm {α : Type} (B : List α) : (swapFront B).Perm B := by
  cases B with
  | nil => exact .refl _
  | cons y ys =>
      simp only [swapFront]
      have h2 := List.perm_append_singleton ((y :: ys).getLast (by simp)) ((y :: ys).dropLast)
      rw [List.dropLast_append_getLast] at h2
      exact h2.symm

/-! Sorting lemmas. -/

theorem insertSorted_perm {α : Type} (key : α → ℚ) (x : α) (l : List α) :
    (insertSorted key x l).Perm (x :: l) := by
  induction l with
  | nil => exact .refl _
  | cons y ys ih =>
      simp only [insertSorted]
      split_ifs
      · exact .refl _
      · exact (ih.cons y).trans (List.Perm.swap x y ys)

theorem sortByKey_perm {α : Type} (key : α → ℚ) (l : List α) :
    (sortByKey key l).Perm l := by
  induction l with
  | nil => exact .refl _
  | cons x xs ih => exact (insertSorted_perm key x (sortByKey key xs)).trans (ih.cons x)

theorem insertSorted_sorted {α : Type} (key : α → ℚ) (x : α) {l : List α}
    (h : l.Pairwise (fun a b => key a ≤ key b)) :
    (insertSorted key x l).Pairwise (fun a b => key a ≤ key b) := by
  induction l with
  | nil => simp [insertSorted]
  | cons y ys ih =>
      rw [List.pairwise_cons] at h
      obtain ⟨hy, hys⟩ := h
      simp only [insertSorted]
      split_ifs with hle
      · rw [List.pairwise_cons]
        refine ⟨?_, List.pairwise_cons.mpr ⟨hy, hys⟩⟩
        intro z hz
        rcases List.mem_cons.mp hz with h' | h'
        · exact h' ▸ hle
        · exact le_trans hle (hy z h')
      · rw [List.pairwise_cons]
        refine ⟨?_, ih hys⟩
        intro z hz
        rcases List.mem_cons.mp ((insertSorted_perm key x ys).mem_iff.mp hz) with h' | h'
        · exact h' ▸ le_of_not_le hle
        · exact hy z h'

theorem sortByKey_sorted {α : Type} (key : α → ℚ) (l : List α) :
    (sortByKey key l).Pairwise (fun a b => key a ≤ key b) := by
  induction l with
  | nil => simp [sortByKey]
  | cons x xs ih => exact insertSorted_sorted key x ih

/-! Containment facts. -/

theorem holds_refl (r : Rect) : r.holds r :=
  ⟨le_refl _, le_refl _, le_refl _, le_refl _⟩

theorem holds_trans {a b c : Rect} (h1 : a.holds b) (h2 : b.holds c) : a.holds c := by
  obtain ⟨x1, x2, x3, x4⟩ := h1
  obtain ⟨y1, y2, y3, y4⟩ := h2
  exact ⟨le_trans x1 y1, le_trans y2 x2, le_trans x3 y3, le_trans y4 x4⟩

theorem wfChild_entries_holds {T : Type} :
    ∀ (k : Nat) (n : Node T), WfChild k n → ∀ e ∈ entriesN n, n.rect.holds e.1 := by
  intro k
  induction k with
  | zero =>
      intro n hn e he
      cases n with
      | item r d =>
          simp only [entriesN, List.mem_singleton] at he
          subst he
          exact holds_refl _
      | parent r ns => exact absurd hn (by simp [WfChild])
  | succ k ih =>
      intro n hn e he
      cases n with
      | item r d => exact absurd hn (by simp [WfChild])
      | parent r ns =>
          obtain ⟨hrect, _, _, hall⟩ := hn
          simp only [entriesN] at he
          obtain ⟨c, hc, hec⟩ := entriesL_mem he
          have h1 := ih c (hall c hc) e hec
          have h2 : (unionRect ns).holds c.rect := unionRect_holds hc
          simpa only [Node.rect, hrect] using holds_trans h2 h1

theorem wfChild_entries_ne_nil {T : Type} :
    ∀ (k : Nat) (n : Node T), WfChild k n → entriesN n ≠ [] := by
  intro k
  induction k with
  | zero =>
      intro n hn
      cases n with
      | item r d => simp [entriesN]
      | parent r ns => exact absurd hn (by simp [WfChild])
  | succ k ih =>
      intro n hn
      cases n with
      | item r d => exact absurd hn (by simp [WfChild])
      | parent r ns =>
          obtain ⟨_, hlen, _, hall⟩ := hn
          cases ns with
          | nil => simp [MIN_ITEMS] at hlen
          | cons c rest =>
              simp only [entriesN, entriesL]
              have := ih c (hall c (by simp))
              intro hcontra
              rw [List.append_eq_nil] at hcontra
              exact this hcontra.1

/-! Characterization of the split partition loop. -/

theorem splitPart_filter {T : Type} (rect : Rect) (axis : Axis) :
    ∀ (k : Nat) (B : List (Node T)), B.length ≤ k → ∀ A R,
      ((splitPart rect axis A B R).1).Perm
          (A ++ B.filter (fun c => decide (staysLeft rect axis c))) ∧
        ((splitPart rect axis A B R).2).Perm
          (R ++ B.filter (fun c => !decide (staysLeft rect axis c))) := by
  intro k
  induction k with
  | zero =>
      intro B hB A R
      rw [List.length_eq_zero.mp (Nat.le_zero.mp hB)]
      simp [splitPart]
  | succ k ih =>
      intro B hB A R
      cases B with
      | nil => simp [splitPart]
      | cons c B' =>
          simp only [splitPart]
          split_ifs with hc
          · have hst : decide (staysLeft rect axis c) = true := by
              simpa [staysLeft] using hc
            obtain ⟨h1, h2⟩ := ih B' (by simpa using hB) (A ++ [c]) R
            constructor
            · refine h1.trans (List.Perm.of_eq ?_)
              simp [List.filter_cons, hst]
            · refine h2.trans (List.Perm.of_eq ?_)
              simp [List.filter_cons, hst]
          · have hst : decide (staysLeft rect axis c) = false := by
              simpa [staysLeft] using hc
            have hlen : (swapFront B').length ≤ k := by
              rw [(swapFront_perm B').length_eq]
              simpa using hB
            obtain ⟨h1, h2⟩ := ih (swapFront B') hlen A (R ++ [c])
            have hperm := (swapFront_perm B').filter
              (fun c => decide (staysLeft rect axis c))
            have hperm2 := (swapFront_perm B').filter
              (fun c => !decide (staysLeft rect axis c))
            constructor
            · refine (h1.trans (hperm.append_left A)).trans (List.Perm.of_eq ?_)
              simp [List.filter_cons, hst]
            · refine (h2.trans (hperm2.append_left (R ++ [c]))).trans (List.Perm.of_eq ?_)
              simp [List.filter_cons, hst]

theorem splitPart_main {T : Type} (rect : Rect) (axis : Axis) (ns : List (Node T)) :
    ((splitPart rect axis [] ns []).1).Perm
        (ns.filter (fun c => decide (staysLeft rect axis c))) ∧
      ((splitPart rect axis [] ns []).2).Perm
        (ns.filter (fun c => !decide (staysLeft rect axis c))) := by
  have h := splitPart_filter rect axis ns.length ns le_rfl [] []
  simpa using h

theorem splitPart_union_perm {T : Type} (rect : Rect) (axis : Axis) (ns : List (Node T)) :
    ((splitPart rect axis [] ns []).1 ++ (splitPart rect axis [] ns []).2).Perm ns := by
  obtain ⟨h1, h2⟩ := splitPart_main rect axis ns
  exact (h1.append h2).trans (List.filter_append_perm _ ns)

/-! Lemmas about the rebalancing loop. -/

theorem popPush_of_ge {T : Type} {l r : List (Node T)} (h : MIN_ITEMS ≤ l.length) :
    popPush l r = (l, r) := by
  rw [popPush]
  simp [Nat.not_lt.mpr h]

theorem popPush_shape_aux {T : Type} :
    ∀ (j : Nat) (l r : List (Node T)), MIN_ITEMS - l.length ≤ j →
      ∃ m : Nat, (popPush l r).1 = l ++ (r.drop (r.length - m)).reverse ∧
        (popPush l r).2 = r.take (r.length - m) := by
  intro j
  induction j with
  | zero =>
      intro l r hj
      have hge : MIN_ITEMS ≤ l.length := by omega
      exact ⟨0, by simp [popPush_of_ge hge]⟩
  | succ j ihj =>
      intro l r hj
      by_cases hge : MIN_ITEMS ≤ l.length
      · exact ⟨0, by simp [popPush_of_ge hge]⟩
      · have hlt : l.length < MIN_ITEMS := by omega
        rw [popPush]
        simp only [if_pos hlt]
        cases hr : r.getLast? with
        | none => exact ⟨0, by simp⟩
        | some last =>
            have hrne : r ≠ [] := by
              intro hcon
              rw [hcon] at hr
              simp at hr
            have hsplitr : r.dropLast ++ [last] = r := by
              rw [List.getLast?_eq_getLast r hrne] at hr
              rw [← Option.some_inj.mp hr]
              exact List.dropLast_append_getLast hrne
            have hlen : r.length = r.dropLast.length + 1 := by
              conv_lhs => rw [← hsplitr]
              simp
            obtain ⟨m', hm1, hm2⟩ := ihj (l ++ [last]) r.dropLast (by simp; omega)
            have hidx : (r.dropLast ++ [last]).length - (m' + 1) =
                r.dropLast.length - m' := by
              simp
            have hz : r.dropLast.length - m' - r.dropLast.length = 0 := by omega
            refine ⟨m' + 1, ?_, ?_⟩
            · rw [hm1]
              have hdrop : r.drop (r.length - (m' + 1)) =
                  r.dropLast.drop (r.dropLast.length - m') ++ [last] := by
                conv_lhs => rw [← hsplitr]
                rw [List.drop_append_eq_append_drop, hidx, hz]
                simp
              rw [hdrop]
              simp
            · rw [hm2]
              conv_rhs => rw [← hsplitr]
              rw [List.take_append_eq_append_take, hidx, hz]
              simp

theorem popPush_shape {T : Type} (l r : List (Node T)) :
    ∃ m : Nat, (popPush l r).1 = l ++ (r.drop (r.length - m)).reverse ∧
      (popPush l r).2 = r.take (r.length - m) :=
  popPush_shape_aux MIN_ITEMS l r (Nat.sub_le _ _)

theorem popPush_perm {T : Type} (l r : List (Node T)) :
    ((popPush l r).1 ++ (popPush l r).2).Perm (l ++ r) := by
  obtain ⟨m, h1, h2⟩ := popPush_shape l r
  rw [h1, h2, List.append_assoc]
  refine (List.Perm.append_left l ?_)
  refine ((List.reverse_perm _).append_right _).trans ?_
  refine (List.perm_append_comm).trans ?_
  rw [List.take_append_drop]

theorem popPush_len_aux {T : Type} :
    ∀ (j : Nat) (l r : List (Node T)), MIN_ITEMS - l.length ≤ j →
      MIN_ITEMS ≤ l.length + r.length →
      (popPush l r).1.length = max l.length MIN_ITEMS := by
  intro j
  induction j with
  | zero =>
      intro l r hj hsum
      have hge : MIN_ITEMS ≤ l.length := by omega
      rw [popPush_of_ge hge]
      simp
      omega
  | succ j ihj =>
      intro l r hj hsum
      by_cases hge : MIN_ITEMS ≤ l.length
      · rw [popPush_of_ge hge]
        simp
        omega
      · have hlt : l.length < MIN_ITEMS := by omega
        have hrne : r ≠ [] := by
          intro hcon
          rw [hcon] at hsum
          simp at hsum
          omega
        rw [popPush]
        simp only [if_pos hlt]
        rw [List.getLast?_eq_getLast r hrne]
        have hlen : r.length = r.dropLast.length + 1 := by
          conv_lhs => rw [← List.dropLast_append_getLast hrne]
          simp
        have := ihj (l ++ [r.getLast hrne]) r.dropLast (by simp; omega) (by simp; omega)
        rw [this]
        simp
        omega

theorem popPush_len {T : Type} (l r : List (Node T))
    (hsum : MIN_ITEMS ≤ l.length + r.length) :
    (popPush l r).1.length = max l.length MIN_ITEMS :=
  popPush_len_aux MIN_ITEMS l r (Nat.sub_le _ _) hsum

/-! The choose-subtree index is in range. -/

theorem chooseLEGo_lt {T : Type} (r : Rect) :
    ∀ (rest : List (Node T)) (i best : Nat) (bd ba : ℚ) (N : Nat),
      best < N → i + rest.length ≤ N → chooseLEGo r rest i best bd ba < N := by
  intro rest
  induction rest with
  | nil =>
      intro i best bd ba N hb hi
      simpa [chooseLEGo] using hb
  | cons n rest ih =>
      intro i best bd ba N hb hi
      simp only [chooseLEGo]
      split_ifs
      · exact ih (i + 1) i _ _ N (by simp at hi; omega) (by simp at hi; omega)
      · exact ih (i + 1) best _ _ N hb (by simp at hi; omega)

theorem chooseLE_lt {T : Type} (r : Rect) {ns : List (Node T)} (h : ns ≠ []) :
    chooseLE r ns < ns.length := by
  cases ns with
  | nil => exact absurd rfl h
  | cons n rest =>
      simp only [chooseLE]
      exact chooseLEGo_lt r rest 1 0 _ _ (n :: rest).length (by simp) (by simp; omega)

/-! The split master lemma: any split of a full parent produces two sides
that partition the children, both within the fan-out bounds, with freshly
recomputed tight rects. -/

theorem splitFinal_spec {T : Type} (rect : Rect) (ns l1 r1 : List (Node T))
    (hperm : (l1 ++ r1).Perm ns) (hl : MIN_ITEMS ≤ l1.length)
    (hr : MIN_ITEMS ≤ r1.length) :
    ((sortByKey (fun n => n.rect.min.x) l1 ++ sortByKey (fun n => n.rect.min.x) r1).Perm ns ∧
      MIN_ITEMS ≤ (sortByKey (fun n => n.rect.min.x) l1).length ∧
      MIN_ITEMS ≤ (sortByKey (fun n => n.rect.min.x) r1).length) ∧
      recalcRect rect l1 = unionRect (sortByKey (fun n => n.rect.min.x) l1) ∧
      recalcRect rect r1 = unionRect (sortByKey (fun n => n.rect.min.x) r1) := by
  have hl1 : l1 ≠ [] := by
    intro hcon
    rw [hcon] at hl
    simp [MIN_ITEMS] at hl
  have hr1 : r1 ≠ [] := by
    intro hcon
    rw [hcon] at hr
    simp [MIN_ITEMS] at hr
  have hsl := sortByKey_perm (fun n : Node T => n.rect.min.x) l1
  have hsr := sortByKey_perm (fun n : Node T => n.rect.min.x) r1
  refine ⟨⟨(hsl.append hsr).trans hperm, ?_, ?_⟩, ?_, ?_⟩
  · rw [hsl.length_eq]; exact hl
  · rw [hsr.length_eq]; exact hr
  · rw [recalcRect_eq_unionRect rect hl1]
    exact unionRect_perm hsl.symm hl1
  · rw [recalcRect_eq_unionRect rect hr1]
    exact unionRect_perm hsr.symm hr1

theorem splitLAES_spec {T : Type} (rect : Rect) (ns : List (Node T))
    (h32 : ns.length = MAX_ITEMS) :
    ((splitLAES rect ns).1.2 ++ (splitLAES rect ns).2.2).Perm ns ∧
      MIN_ITEMS ≤ (splitLAES rect ns).1.2.length ∧
      MIN_ITEMS ≤ (splitLAES rect ns).2.2.length ∧
      (splitLAES rect ns).1.1 = unionRect (splitLAES rect ns).1.2 ∧
      (splitLAES rect ns).2.1 = unionRect (splitLAES rect ns).2.2 := by
  have hperm0 := splitPart_union_perm rect rect.largest_axis ns
  simp only [splitLAES]
  set P := splitPart rect rect.largest_axis [] ns [] with hP
  have hsum : P.1.length + P.2.length = MAX_ITEMS := by
    have := hperm0.length_eq
    simp only [List.length_append] at this
    omega
  by_cases h1 : P.1.length < MIN_ITEMS
  · simp only [if_pos h1]
    set s := sortByKey (fun n => n.rect.min.on rect.largest_axis) P.2 with hs
    have hsp : s.Perm P.2 := sortByKey_perm _ _
    have hsum2 : MIN_ITEMS ≤ P.1.length + s.length := by
      rw [hsp.length_eq]
      simp [MIN_ITEMS, MAX_ITEMS] at hsum ⊢
      omega
    have hlen1 : (popPush P.1 s).1.length = max P.1.length MIN_ITEMS :=
      popPush_len _ _ hsum2
    have hperm1 : ((popPush P.1 s).1 ++ (popPush P.1 s).2).Perm ns :=
      (popPush_perm P.1 s).trans ((hsp.append_left P.1).trans hperm0)
    have hl : MIN_ITEMS ≤ (popPush P.1 s).1.length := by
      rw [hlen1]
      omega
    have hr2 : MIN_ITEMS ≤ (popPush P.1 s).2.length := by
      have hle := hperm1.length_eq
      simp only [List.length_append] at hle
      rw [h32] at hle
      simp [MIN_ITEMS, MAX_ITEMS] at hlen1 hle ⊢
      omega
    obtain ⟨⟨a, b, c⟩, d, e⟩ :=
      splitFinal_spec rect ns (popPush P.1 s).1 (popPush P.1 s).2 hperm1 hl hr2
    exact ⟨a, b, c, d, e⟩
  · simp only [if_neg h1]
    by_cases h2 : P.2.length < MIN_ITEMS
    · simp only [if_pos h2]
      set s := sortByKey (fun n => n.rect.max.on rect.largest_axis) P.1 with hs
      have hsp : s.Perm P.1 := sortByKey_perm _ _
      have hsum2 : MIN_ITEMS ≤ P.2.length + s.length := by
        rw [hsp.length_eq]
        simp [MIN_ITEMS, MAX_ITEMS] at hsum ⊢
        omega
      have hlen1 : (popPush P.2 s).1.length = max P.2.length MIN_ITEMS :=
        popPush_len _ _ hsum2
      have hperm1 : ((popPush P.2 s).1 ++ (popPush P.2 s).2).Perm (P.2 ++ P.1) :=
        (popPush_perm P.2 s).trans (hsp.append_left P.2)
      have hperm2 : ((popPush P.2 s).2 ++ (popPush P.2 s).1).Perm ns :=
        (List.perm_append_comm.trans hperm1).trans
          (List.perm_append_comm.trans hperm0)
      have hr2 : MIN_ITEMS ≤ (popPush P.2 s).1.length := by
        rw [hlen1]
        omega
      have hl : MIN_ITEMS ≤ (popPush P.2 s).2.length := by
        have hle := hperm2.length_eq
        simp only [List.length_append] at hle
        rw [h32] at hle
        simp [MIN_ITEMS, MAX_ITEMS] at hlen1 hle ⊢
        omega
      obtain ⟨⟨a, b, c⟩, d, e⟩ :=
        splitFinal_spec rect ns (popPush P.2 s).2 (popPush P.2 s).1 hperm2 hl hr2
      exact ⟨a, b, c, d, e⟩
    · simp only [if_neg h2]
      obtain ⟨⟨a, b, c⟩, d, e⟩ :=
        splitFinal_spec rect ns P.1 P.2 hperm0 (by omega) (by omega)
      exact ⟨a, b, c, d, e⟩

/-! Algebra of `expand` and `unionRect`. -/

theorem expand_self (a : Rect) : a.expand a = a := by
  simp only [expand_eq, min_self, max_self]

theorem expand_comm (a b : Rect) : a.expand b = b.expand a := by
  simp only [expand_eq, min_comm b.min.x a.min.x, min_comm b.min.y a.min.y,
    max_comm b.max.x a.max.x, max_comm b.max.y a.max.y]

theorem expand_assoc (a b c : Rect) : (a.expand b).expand c = a.expand (b.expand c) := by
  simp only [expand_eq]
  simp [min_assoc, max_assoc, min_comm, max_comm, min_left_comm, max_left_comm]

theorem foldl_expand_comm {T : Type} (rest : List (Node T)) :
    ∀ acc z : Rect,
      rest.foldl (fun a m => a.expand m.rect) (z.expand acc) =
        z.expand (rest.foldl (fun a m => a.expand m.rect) acc) := by
  induction rest with
  | nil => intro acc z; rfl
  | cons m rest ih =>
      intro acc z
      simp only [List.foldl_cons]
      rw [expand_assoc, ih]

theorem unionRect_single {T : Type} (x : Node T) : unionRect [x] = x.rect := rfl

theorem unionRect_cons_ne {T : Type} (x : Node T) {L : List (Node T)} (h : L ≠ []) :
    unionRect (x :: L) = x.rect.expand (unionRect L) := by
  cases L with
  | nil => exact absurd rfl h
  | cons c rest =>
      show rest.foldl (fun a m => a.expand m.rect) (x.rect.expand c.rect) = _
      rw [foldl_expand_comm]
      rfl

theorem unionRect_append_ne {T : Type} {A B : List (Node T)} (hA : A ≠ []) (hB : B ≠ []) :
    unionRect (A ++ B) = (unionRect A).expand (unionRect B) := by
  induction A with
  | nil => exact absurd rfl hA
  | cons a A' ih =>
      cases hA' : A' with
      | nil =>
          subst hA'
          simp only [List.singleton_append, unionRect_single]
          exact unionRect_cons_ne a hB
      | cons b rest =>
          rw [← hA']
          have hA'ne : A' ≠ [] := by simp [hA']
          have hABne : A' ++ B ≠ [] := by simp [hA']
          rw [List.cons_append, unionRect_cons_ne a hABne, ih hA'ne,
            ← expand_assoc, ← unionRect_cons_ne a hA'ne]

theorem unionRect_append_singleton {T : Type} {ns : List (Node T)} (x : Node T)
    (h : ns ≠ []) : unionRect (ns ++ [x]) = (unionRect ns).expand x.rect := by
  rw [unionRect_append_ne h (by simp), unionRect_single]

theorem union_replace_expand {T : Type} (r : Rect) (A B : List (Node T)) (c x : Node T)
    (hx : x.rect = c.rect.expand r) :
    unionRect (A ++ x :: B) = (unionRect (A ++ c :: B)).expand r := by
  by_cases hL : A ++ B = []
  · obtain ⟨hA, hB⟩ := List.append_eq_nil.mp hL
    subst hA
    subst hB
    simp only [List.nil_append, unionRect_single, hx]
  · have h1 : unionRect (A ++ x :: B) = unionRect (x :: (A ++ B)) :=
      unionRect_perm List.perm_middle (by simp)
    have h2 : unionRect (A ++ c :: B) = unionRect (c :: (A ++ B)) :=
      unionRect_perm List.perm_middle (by simp)
    rw [h1, h2, unionRect_cons_ne x hL, unionRect_cons_ne c hL, hx]
    simp [expand_eq, min_assoc, max_assoc, min_comm, max_comm, min_left_comm,
      max_left_comm]

theorem union_split_expand {T : Type} (r : Rect) (A B : List (Node T)) (c xl xr : Node T)
    (hj : xl.rect.expand xr.rect = c.rect.expand r) :
    unionRect ((A ++ xl :: B) ++ [xr]) = (unionRect (A ++ c :: B)).expand r := by
  rw [unionRect_append_singleton xr (by simp)]
  by_cases hL : A ++ B = []
  · obtain ⟨hA, hB⟩ := List.append_eq_nil.mp hL
    subst hA
    subst hB
    simp only [List.nil_append, unionRect_single, hj]
  · have h1 : unionRect (A ++ xl :: B) = unionRect (xl :: (A ++ B)) :=
      unionRect_perm List.perm_middle (by simp)
    have h2 : unionRect (A ++ c :: B) = unionRect (c :: (A ++ B)) :=
      unionRect_perm List.perm_middle (by simp)
    rw [h1, h2, unionRect_cons_ne xl hL, unionRect_cons_ne c hL]
    have hAC1 : (xl.rect.expand (unionRect (A ++ B))).expand xr.rect =
        (xl.rect.expand xr.rect).expand (unionRect (A ++ B)) := by
      simp [expand_eq, min_assoc, max_assoc, min_comm, max_comm, min_left_comm,
        max_left_comm]
    rw [hAC1, hj]
    simp [expand_eq, min_assoc, max_assoc, min_comm, max_comm, min_left_comm,
      max_left_comm]

theorem foldl_expand_congr {T : Type} :
    ∀ (L L' : List (Node T)), L.map Node.rect = L'.map Node.rect →
      ∀ acc : Rect, L.foldl (fun a m => a.expand m.rect) acc =
        L'.foldl (fun a m => a.expand m.rect) acc := by
  intro L
  induction L with
  | nil =>
      intro L' h acc
      cases L' with
      | nil => rfl
      | cons _ _ => simp at h
  | cons m L ih =>
      intro L' h acc
      cases L' with
      | nil => simp at h
      | cons m' L2 =>
          simp only [List.map_cons, List.cons.injEq] at h
          simp only [List.foldl_cons, h.1]
          exact ih L2 h.2 _

theorem unionRect_congr_rects {T : Type} {ns ns' : List (Node T)}
    (h : ns.map Node.rect = ns'.map Node.rect) : unionRect ns = unionRect ns' := by
  cases ns with
  | nil =>
      cases ns' with
      | nil => rfl
      | cons _ _ => simp at h
  | cons n rest =>
      cases ns' with
      | nil => simp at h
      | cons n' rest' =>
          simp only [List.map_cons, List.cons.injEq] at h
          show rest.foldl _ n.rect = rest'.foldl _ n'.rect
          rw [h.1]
          exact foldl_expand_congr rest rest' h.2 _

theorem unionRect_erase_inside {T : Type} {ns ns' : List (Node T)} {c : Node T}
    (hperm : ns.Perm (c :: ns')) (hne : ns' ≠ [])
    (hedge : (unionRect ns).on_edge c.rect = false) :
    unionRect ns' = unionRect ns := by
  cases ns with
  | nil => exact absurd hperm.symm.eq_nil (by simp)
  | cons n rest =>
      cases ns' with
      | nil => exact absurd rfl hne
      | cons a' m' =>
          rw [on_edge_false_iff] at hedge
          rw [unionRect_eq] at hedge
          obtain ⟨e1, e2, e3, e4⟩ := hedge
          have hm1 := hperm.map fun m : Node T => m.rect.min.x
          have hm2 := hperm.map fun m : Node T => m.rect.min.y
          have hm3 := hperm.map fun m : Node T => m.rect.max.x
          have hm4 := hperm.map fun m : Node T => m.rect.max.y
          simp only [List.map_cons] at hm1 hm2 hm3 hm4
          rw [unionRect_eq, unionRect_eq]
          simp only [Rect.mk.injEq, Point.mk.injEq]
          exact ⟨⟨listMin_erase hm1 e1, listMin_erase hm2 e3⟩,
            listMax_erase hm3 e2, listMax_erase hm4 e4⟩

/-! List decomposition helpers. -/

theorem list_decomp {α : Type} (l : List α) (i : Nat) (h : i < l.length) :
    l = l.take i ++ l[i] :: l.drop (i + 1) := by
  conv_lhs => rw [← List.take_append_drop i l]
  rw [List.drop_eq_getElem_cons h]

theorem set_decomp {α : Type} (l : List α) (i : Nat) (x : α) (h : i < l.length) :
    l.set i x = l.take i ++ x :: l.drop (i + 1) := by
  rw [List.set_eq_take_append_cons_drop]
  simp [h]

theorem entriesL_middle {T : Type} (A B : List (Node T)) (x : Node T) :
    entriesL (A ++ x :: B) = entriesL A ++ (entriesN x ++ entriesL B) := by
  rw [entriesL_append]
  rfl

/-! The insert preservation lemma: one recursive `Parent::insert` call on a
well-formed parent state keeps the children well formed, leaves the parent
with `rect` expanded by the inserted rect and still tight, grows the child
count by at most one, and adds exactly the new entry. -/

theorem insertP_spec {T : Type} [DecidableEq T] (r : Rect) (d : T) :
    ∀ (k : Nat) (rect : Rect) (ns : List (Node T)),
      (∀ n ∈ ns, WfChild k n) → ns ≠ [] → rect = unionRect ns →
      ns.length ≤ MAX_ITEMS - 1 →
      (∀ n ∈ (insertP r d k (rect, ns)).2, WfChild k n) ∧
        (insertP r d k (rect, ns)).2 ≠ [] ∧
        (insertP r d k (rect, ns)).1 = unionRect (insertP r d k (rect, ns)).2 ∧
        (insertP r d k (rect, ns)).1 = rect.expand r ∧
        ns.length ≤ (insertP r d k (rect, ns)).2.length ∧
        (insertP r d k (rect, ns)).2.length ≤ ns.length + 1 ∧
        (entriesL (insertP r d k (rect, ns)).2).Perm ((r, d) :: entriesL ns) := by
  intro k
  induction k with
  | zero =>
      intro rect ns hwf hne hrect hlen
      have hstep0 : insertP r d 0 (rect, ns) = (rect.expand r, ns ++ [Node.item r d]) := rfl
      rw [hstep0]
      refine ⟨?_, by simp, ?_, rfl, by simp, by simp, ?_⟩
      · intro n hn
        rcases List.mem_append.mp hn with h | h
        · exact hwf n h
        · rcases List.mem_singleton.mp h with rfl
          trivial
      · show rect.expand r = unionRect (ns ++ [Node.item r d])
        rw [unionRect_append_singleton _ hne, ← hrect]
        rfl
      · show (entriesL (ns ++ [Node.item r d])).Perm _
        rw [entriesL_append]
        simp only [entriesL, entriesN, List.append_nil]
        exact List.perm_append_singleton _ _
  | succ k ih =>
      intro rect ns hwf hne hrect hlen
      have hi : chooseLE r ns < ns.length := chooseLE_lt r hne
      have hmem : ns[chooseLE r ns] ∈ ns := List.getElem_mem hi
      have hget : ns[chooseLE r ns]? = some ns[chooseLE r ns] :=
        List.getElem?_eq_getElem hi
      have hwfi := hwf _ hmem
      cases hcase : ns[chooseLE r ns] with
      | item ir id =>
          rw [hcase] at hwfi
          exact absurd hwfi (by simp [WfChild])
      | parent crect cns =>
          rw [hcase] at hwfi hget
          have hwfi2 : crect = unionRect cns ∧ MIN_ITEMS ≤ cns.length ∧
              cns.length ≤ MAX_ITEMS - 1 ∧ ∀ n ∈ cns, WfChild k n := hwfi
          obtain ⟨hcr, hclen, hcmax, hcall⟩ := hwfi2
          have hcne : cns ≠ [] := by
            intro hc
            rw [hc] at hclen
            simp [MIN_ITEMS] at hclen
          obtain ⟨ihwf, ihne, ihtight, ihexp, ihlo, ihhi, ihent⟩ :=
            ih crect cns hcall hcne hcr hcmax
          have hAB : ns = ns.take (chooseLE r ns) ++
              Node.parent crect cns :: ns.drop (chooseLE r ns + 1) := by
            conv_lhs => rw [list_decomp ns (chooseLE r ns) hi]
            rw [hcase]
          have hlenAB : ns.length = (ns.take (chooseLE r ns)).length +
              (ns.drop (chooseLE r ns + 1)).length + 1 := by
            conv_lhs => rw [hAB]
            simp only [List.length_append, List.length_cons]
            omega
          set c := insertP r d k (crect, cns) with hcdef
          by_cases hfull : c.2.length = MAX_ITEMS
          · obtain ⟨sperm, slmin, srmin, sltight, srtight⟩ := splitLAES_spec c.1 c.2 hfull
            have hslen : (splitLAES c.1 c.2).1.2.length +
                (splitLAES c.1 c.2).2.2.length = MAX_ITEMS := by
              have := sperm.length_eq
              simp only [List.length_append] at this
              omega
            have hslne : (splitLAES c.1 c.2).1.2 ≠ [] := by
              intro hcon
              rw [hcon] at slmin
              simp [MIN_ITEMS] at slmin
            have hsrne : (splitLAES c.1 c.2).2.2 ≠ [] := by
              intro hcon
              rw [hcon] at srmin
              simp [MIN_ITEMS] at srmin
            have hstep : insertP r d (k + 1) (rect, ns) =
                (rect.expand r,
                 (ns.set (chooseLE r ns)
                    (Node.parent (splitLAES c.1 c.2).1.1 (splitLAES c.1 c.2).1.2)) ++
                   [Node.parent (splitLAES c.1 c.2).2.1 (splitLAES c.1 c.2).2.2]) := by
              simp only [insertP]
              rw [hget]
              simp only [← hcdef, if_pos hfull]
            have hset := set_decomp ns (chooseLE r ns)
              (Node.parent (splitLAES c.1 c.2).1.1 (splitLAES c.1 c.2).1.2) hi
            have hj : (Node.parent (splitLAES c.1 c.2).1.1
                  (splitLAES c.1 c.2).1.2).rect.expand
                (Node.parent (splitLAES c.1 c.2).2.1 (splitLAES c.1 c.2).2.2).rect =
                (Node.parent crect cns).rect.expand r := by
              show (splitLAES c.1 c.2).1.1.expand (splitLAES c.1 c.2).2.1 = crect.expand r
              rw [sltight, srtight, ← unionRect_append_ne hslne hsrne,
                unionRect_perm sperm (by simp [hslne]), ← ihtight, ihexp]
            have hwfl : WfChild (k + 1)
                (Node.parent (splitLAES c.1 c.2).1.1 (splitLAES c.1 c.2).1.2) := by
              refine ⟨sltight, slmin, ?_, ?_⟩
              · have h1 := hslen
                have h2 := srmin
                simp only [MIN_ITEMS] at h2
                simp only [MAX_ITEMS] at h1 ⊢
                omega
              · intro n hn
                exact ihwf n (sperm.subset (List.mem_append_left _ hn))
            have hwfr : WfChild (k + 1)
                (Node.parent (splitLAES c.1 c.2).2.1 (splitLAES c.1 c.2).2.2) := by
              refine ⟨srtight, srmin, ?_, ?_⟩
              · have h1 := hslen
                have h2 := slmin
                simp only [MIN_ITEMS] at h2
                simp only [MAX_ITEMS] at h1 ⊢
                omega
              · intro n hn
                exact ihwf n (sperm.subset (List.mem_append_right _ hn))
            rw [hstep, hset]
            refine ⟨?_, by simp, ?_, rfl, ?_, ?_, ?_⟩
            · intro n hn
              rcases List.mem_append.mp hn with h | h
              · rcases List.mem_append.mp h with h | h
                · exact hwf n (by rw [hAB]; exact List.mem_append_left _ h)
                · rcases List.mem_cons.mp h with rfl | h
                  · exact hwfl
                  · exact hwf n (by
                      rw [hAB]
                      exact List.mem_append_right _ (List.mem_cons_of_mem _ h))
              · rcases List.mem_singleton.mp h with rfl
                exact hwfr
            · show rect.expand r = unionRect _
              rw [union_split_expand r _ _ (Node.parent crect cns) _ _ hj, ← hAB, ← hrect]
            · show ns.length ≤ ((ns.take (chooseLE r ns) ++
                  Node.parent (splitLAES c.1 c.2).1.1 (splitLAES c.1 c.2).1.2 ::
                    ns.drop (chooseLE r ns + 1)) ++
                  [Node.parent (splitLAES c.1 c.2).2.1 (splitLAES c.1 c.2).2.2]).length
              simp only [List.length_append, List.length_cons, List.length_nil]
              omega
            · show ((ns.take (chooseLE r ns) ++
                  Node.parent (splitLAES c.1 c.2).1.1 (splitLAES c.1 c.2).1.2 ::
                    ns.drop (chooseLE r ns + 1)) ++
                  [Node.parent (splitLAES c.1 c.2).2.1 (splitLAES c.1 c.2).2.2]).length ≤
                  ns.length + 1
              simp only [List.length_append, List.length_cons, List.length_nil]
              omega
            · have hsplitEnt : (entriesL (splitLAES c.1 c.2).1.2 ++
                  entriesL (splitLAES c.1 c.2).2.2).Perm (entriesL c.2) := by
                rw [← entriesL_append]
                exact entriesL_perm sperm
              rw [List.perm_iff_count]
              intro a
              have h1 := List.perm_iff_count.mp hsplitEnt a
              have h2 := List.perm_iff_count.mp ihent a
              conv_rhs => rw [hAB]
              simp only [entriesL_append, entriesL, entriesN, List.append_nil,
                List.count_append, List.count_cons, List.count_nil] at h1 h2 ⊢
              omega
          · have hstep : insertP r d (k + 1) (rect, ns) =
                (rect.expand r, ns.set (chooseLE r ns) (Node.parent c.1 c.2)) := by
              simp only [insertP]
              rw [hget]
              simp only [← hcdef, if_neg hfull]
            have hset := set_decomp ns (chooseLE r ns) (Node.parent c.1 c.2) hi
            have hwfx : WfChild (k + 1) (Node.parent c.1 c.2) := by
              refine ⟨ihtight, by omega, ?_, ihwf⟩
              have h1 := ihhi
              have h2 := hcmax
              simp only [MAX_ITEMS] at hfull h2 ⊢
              omega
            rw [hstep, hset]
            refine ⟨?_, by simp, ?_, rfl, ?_, ?_, ?_⟩
            · intro n hn
              rcases List.mem_append.mp hn with h | h
              · exact hwf n (by rw [hAB]; exact List.mem_append_left _ h)
              · rcases List.mem_cons.mp h with rfl | h
                · exact hwfx
                · exact hwf n (by
                    rw [hAB]
                    exact List.mem_append_right _ (List.mem_cons_of_mem _ h))
            · show rect.expand r = unionRect _
              rw [union_replace_expand r _ _ (Node.parent crect cns) _
                  (by show (Node.parent c.1 c.2).rect = (Node.parent crect cns).rect.expand r
                      exact ihexp),
                ← hAB, ← hrect]
            · show ns.length ≤ (ns.take (chooseLE r ns) ++
                  Node.parent c.1 c.2 :: ns.drop (chooseLE r ns + 1)).length
              simp only [List.length_append, List.length_cons]
              omega
            · show (ns.take (chooseLE r ns) ++
                  Node.parent c.1 c.2 :: ns.drop (chooseLE r ns + 1)).length ≤ ns.length + 1
              simp only [List.length_append, List.length_cons]
              omega
            · rw [List.perm_iff_count]
              intro a
              have h2 := List.perm_iff_count.mp ihent a
              conv_rhs => rw [hAB]
              simp only [entriesL_append, entriesL, entriesN, List.append_nil,
                List.count_append, List.count_cons, List.count_nil] at h2 ⊢
              omega

/-! Tree-level insert preservation. -/

theorem insert_wf {T : Type} [DecidableEq T] (t : RTree T) (r : Rect) (d : T)
    (h : WfTree t) :
    WfTree (t.insert r d) ∧ (t.insert r d).length = t.length + 1 ∧
      (entriesOfTree (t.insert r d)).Perm ((r, d) :: entriesOfTree t) := by
  cases t with
  | mk root tlen theight =>
      cases root with
      | none =>
          obtain ⟨hh, hl⟩ : theight = 0 ∧ tlen = 0 := h
          subst hh
          subst hl
          have hstep : @RTree.insert T ⟨none, 0, 0⟩ r d =
              ⟨some (Node.parent (r.expand r) [Node.item r d]), 1, 0⟩ := by
            simp [RTree.insert, insertP, MAX_ITEMS]
          rw [hstep]
          refine ⟨?_, rfl, ?_⟩
          · show r.expand r = unionRect [Node.item r d] ∧ _
            refine ⟨by rw [expand_self]; rfl, by simp, by simp [MAX_ITEMS], by simp, ?_, rfl⟩
            intro n hn
            rcases List.mem_singleton.mp hn with rfl
            trivial
          · simp [entriesOfTree, entriesN, entriesL]
      | some rn =>
          cases rn with
          | item a b => exact absurd h (by simp [WfTree])
          | parent rect ns =>
              have h2 : rect = unionRect ns ∧ ns ≠ [] ∧ ns.length ≤ MAX_ITEMS - 1 ∧
                  (0 < theight → MIN_ITEMS ≤ ns.length) ∧
                  (∀ n ∈ ns, WfChild theight n) ∧ tlen = (entriesL ns).length := h
              obtain ⟨hrect, hne, hmax, hminr, hall, hcount⟩ := h2
              obtain ⟨pwf, pne, ptight, pexp, plo, phi, pent⟩ :=
                insertP_spec r d theight rect ns hall hne hrect hmax
              set p := insertP r d theight (rect, ns) with hpdef
              by_cases hfull : p.2.length = MAX_ITEMS
              · obtain ⟨sperm, slmin, srmin, sltight, srtight⟩ :=
                  splitLAES_spec p.1 p.2 hfull
                have hslen : (splitLAES p.1 p.2).1.2.length +
                    (splitLAES p.1 p.2).2.2.length = MAX_ITEMS := by
                  have := sperm.length_eq
                  simp only [List.length_append] at this
                  omega
                have hslne : (splitLAES p.1 p.2).1.2 ≠ [] := by
                  intro hcon
                  rw [hcon] at slmin
                  simp [MIN_ITEMS] at slmin
                have hsrne : (splitLAES p.1 p.2).2.2 ≠ [] := by
                  intro hcon
                  rw [hcon] at srmin
                  simp [MIN_ITEMS] at srmin
                have hstep : @RTree.insert T ⟨some (Node.parent rect ns), tlen, theight⟩ r d =
                    ⟨some (Node.parent p.1
                        [Node.parent (splitLAES p.1 p.2).1.1 (splitLAES p.1 p.2).1.2,
                         Node.parent (splitLAES p.1 p.2).2.1 (splitLAES p.1 p.2).2.2]),
                      tlen + 1, theight + 1⟩ := by
                  simp only [RTree.insert, Option.getD]
                  simp only [← hpdef, if_pos hfull]
                rw [hstep]
                have hwfl : WfChild (theight + 1)
                    (Node.parent (splitLAES p.1 p.2).1.1 (splitLAES p.1 p.2).1.2) := by
                  refine ⟨sltight, slmin, ?_, ?_⟩
                  · have h1 := hslen
                    have h2 := srmin
                    simp only [MIN_ITEMS] at h2
                    simp only [MAX_ITEMS] at h1 ⊢
                    omega
                  · intro n hn
                    exact pwf n (sperm.subset (List.mem_append_left _ hn))
                have hwfr : WfChild (theight + 1)
                    (Node.parent (splitLAES p.1 p.2).2.1 (splitLAES p.1 p.2).2.2) := by
                  refine ⟨srtight, srmin, ?_, ?_⟩
                  · have h1 := hslen
                    have h2 := slmin
                    simp only [MIN_ITEMS] at h2
                    simp only [MAX_ITEMS] at h1 ⊢
                    omega
                  · intro n hn
                    exact pwf n (sperm.subset (List.mem_append_right _ hn))
                have hentnew : (entriesL [Node.parent (splitLAES p.1 p.2).1.1
                      (splitLAES p.1 p.2).1.2,
                    Node.parent (splitLAES p.1 p.2).2.1 (splitLAES p.1 p.2).2.2]).Perm
                    ((r, d) :: entriesL ns) := by
                  have hsplitEnt : (entriesL (splitLAES p.1 p.2).1.2 ++
                      entriesL (splitLAES p.1 p.2).2.2).Perm (entriesL p.2) := by
                    rw [← entriesL_append]
                    exact entriesL_perm sperm
                  simp only [entriesL, entriesN, List.append_nil]
                  exact hsplitEnt.trans pent
                refine ⟨?_, rfl, ?_⟩
                · refine ⟨?_, by simp, by simp [MAX_ITEMS], by simp [MIN_ITEMS], ?_, ?_⟩
                  · show p.1 = unionRect [Node.parent (splitLAES p.1 p.2).1.1
                        (splitLAES p.1 p.2).1.2,
                      Node.parent (splitLAES p.1 p.2).2.1 (splitLAES p.1 p.2).2.2]
                    rw [unionRect_cons_ne _ (by simp), unionRect_single]
                    show p.1 = (splitLAES p.1 p.2).1.1.expand (splitLAES p.1 p.2).2.1
                    rw [sltight, srtight, ← unionRect_append_ne hslne hsrne,
                      unionRect_perm sperm (by simp [hslne]), ← ptight]
                  · intro n hn
                    rcases List.mem_cons.mp hn with rfl | hn
                    · exact hwfl
                    rcases List.mem_singleton.mp hn with rfl
                    exact hwfr
                  · show tlen + 1 = _
                    rw [hcount]
                    have := hentnew.length_eq
                    simp only [List.length_cons] at this
                    omega
                · show (entriesL _).Perm ((r, d) :: entriesL ns)
                  exact hentnew
              · have hstep : @RTree.insert T ⟨some (Node.parent rect ns), tlen, theight⟩ r d =
                    ⟨some (Node.parent p.1 p.2), tlen + 1, theight⟩ := by
                  simp only [RTree.insert, Option.getD]
                  simp only [← hpdef, if_neg hfull]
                rw [hstep]
                refine ⟨?_, rfl, ?_⟩
                · refine ⟨ptight, pne, ?_, ?_, pwf, ?_⟩
                  · have h1 := phi
                    have h2 := hmax
                    simp only [MAX_ITEMS] at hfull h2 ⊢
                    omega
                  · intro hpos
                    have := hminr hpos
                    omega
                  · show tlen + 1 = _
                    rw [hcount]
                    have := pent.length_eq
                    simp only [List.length_cons] at this
                    omega
                · show (entriesL p.2).Perm ((r, d) :: entriesL ns)
                  exact pent

/-! A removal that finds nothing leaves the state untouched, adds nothing to
the reinsert list, and leaves the recalc flag off — at every level. -/

theorem removeLeafGo_none {T : Type} [DecidableEq T] (rect : Rect) (d : T) :
    ∀ (B A : List (Node T)), (removeLeafGo rect d A B).2.1 = none →
      (removeLeafGo rect d A B).1 = (rect, A ++ B) ∧
        (removeLeafGo rect d A B).2.2 = false := by
  intro B
  induction B with
  | nil =>
      intro A h
      exact ⟨by simp [removeLeafGo], rfl⟩
  | cons c B ih =>
      intro A h
      cases c with
      | item ir id =>
          by_cases hid : id = d
          · exfalso
            simp only [removeLeafGo, if_pos hid] at h
            exact Option.noConfusion h
          · simp only [removeLeafGo, if_neg hid] at h ⊢
            obtain ⟨h1, h2⟩ := ih (A ++ [Node.item ir id]) h
            rw [h1]
            exact ⟨by simp, h2⟩
      | parent cr cn =>
          simp only [removeLeafGo] at h ⊢
          obtain ⟨h1, h2⟩ := ih (A ++ [Node.parent cr cn]) h
          rw [h1]
          exact ⟨by simp, h2⟩

theorem removeP_none {T : Type} [DecidableEq T] (q : Rect) (d : T) :
    ∀ (k : Nat) (rect : Rect) (ns : List (Node T)),
      (removeP q d k rect ns).2.2.1 = none →
      (removeP q d k rect ns).1 = (rect, ns) ∧
        (removeP q d k rect ns).2.1 = [] ∧ (removeP q d k rect ns).2.2.2 = false := by
  intro k
  induction k with
  | zero =>
      intro rect ns h
      simp only [removeP] at h ⊢
      obtain ⟨h1, h2⟩ := removeLeafGo_none rect d ns [] h
      exact ⟨by simpa using h1, trivial, h2⟩
  | succ k ih =>
      have hgo : ∀ (B A : List (Node T)) (rect : Rect),
          (removeGo q d k rect A B).2.2.1 = none →
          (removeGo q d k rect A B).1 = (rect, A ++ B) ∧
            (removeGo q d k rect A B).2.1 = [] ∧
            (removeGo q d k rect A B).2.2.2 = false := by
        intro B
        induction B with
        | nil =>
            intro A rect h
            exact ⟨by simp [removeGo], by simp [removeGo], by simp [removeGo]⟩
        | cons c B ihB =>
            intro A rect h
            cases c with
            | item ir id =>
                simp only [removeGo] at h ⊢
                obtain ⟨h1, h2, h3⟩ := ihB (A ++ [Node.item ir id]) rect h
                rw [h1]
                exact ⟨by simp, h2, h3⟩
            | parent crect cns =>
                by_cases hint : crect.intersects q
                · simp only [removeGo, if_pos hint] at h ⊢
                  cases hres : (removeP q d k crect cns).2.2.1 with
                  | some it =>
                      exfalso
                      simp only [hres] at h
                      by_cases hund : (removeP q d k crect cns).1.2.length < MIN_ITEMS
                      · simp only [if_pos hund] at h
                        exact Option.noConfusion h
                      · simp only [if_neg hund] at h
                        exact Option.noConfusion h
                  | none =>
                      simp only [hres] at h ⊢
                      obtain ⟨hc1, hc2, hc3⟩ := ih crect cns hres
                      have hx : (removeP q d k crect cns).1.1 = crect := by rw [hc1]
                      have hy : (removeP q d k crect cns).1.2 = cns := by rw [hc1]
                      obtain ⟨h1, h2, h3⟩ := ihB (A ++ [Node.parent
                        (removeP q d k crect cns).1.1 (removeP q d k crect cns).1.2])
                        rect h
                      refine ⟨?_, h2, h3⟩
                      rw [h1, hx, hy]
                      simp
                · simp only [removeGo, if_neg hint] at h ⊢
                  obtain ⟨h1, h2, h3⟩ := ihB (A ++ [Node.parent crect cns]) rect h
                  rw [h1]
                  exact ⟨by simp, h2, h3⟩
      intro rect ns h
      simp only [removeP] at h ⊢
      obtain ⟨h1, h2, h3⟩ := hgo ns [] rect h
      exact ⟨by simpa using h1, h2, h3⟩

/-! Characterization of a successful leaf removal. -/

theorem removeLeafGo_spec {T : Type} [DecidableEq T] (rect : Rect) (d : T) :
    ∀ (B A : List (Node T)) (ir : Rect) (id : T),
      (removeLeafGo rect d A B).2.1 = some (ir, id) →
      id = d ∧
        (A ++ B).Perm (Node.item ir id :: (removeLeafGo rect d A B).1.2) ∧
        ((removeLeafGo rect d A B).2.2 = false →
          (removeLeafGo rect d A B).1.1 = rect ∧ rect.on_edge ir = false) ∧
        ((removeLeafGo rect d A B).2.2 = true →
          (removeLeafGo rect d A B).1.1 =
            recalcRect rect (removeLeafGo rect d A B).1.2) ∧
        (removeLeafGo rect d A B).1.2.length + 1 = (A ++ B).length := by
  intro B
  induction B with
  | nil =>
      intro A ir id h
      exact absurd h (by simp [removeLeafGo])
  | cons c B ih =>
      intro A ir id h
      cases c with
      | item ir' id' =>
          by_cases hid : id' = d
          · simp only [removeLeafGo, if_pos hid] at h ⊢
            obtain ⟨rfl, rfl⟩ : ir' = ir ∧ id' = id := by
              have := Option.some_inj.mp h
              exact ⟨congrArg Prod.fst this, congrArg Prod.snd this⟩
            refine ⟨hid, ?_, ?_, ?_, ?_⟩
            · refine List.perm_middle.trans (List.Perm.cons _ ?_)
              exact (List.Perm.append_left A (swapFront_perm B)).symm
            · intro hrec
              simp [hrec]
            · intro hrec
              rw [hrec]
              simp only [if_true]
            · rw [(List.Perm.append_left A (swapFront_perm B)).length_eq]
              simp only [List.length_append, List.length_cons]
              omega
          · simp only [removeLeafGo, if_neg hid] at h ⊢
            obtain ⟨g1, g2, g3, g4, g5⟩ := ih (A ++ [Node.item ir' id']) ir id h
            refine ⟨g1, ?_, g3, g4, ?_⟩
            · rw [List.append_assoc, List.singleton_append] at g2
              exact g2
            · rw [List.append_assoc, List.singleton_append] at g5
              exact g5
      | parent cr cn =>
          simp only [removeLeafGo] at h ⊢
          obtain ⟨g1, g2, g3, g4, g5⟩ := ih (A ++ [Node.parent cr cn]) ir id h
          refine ⟨g1, ?_, g3, g4, ?_⟩
          · rw [List.append_assoc, List.singleton_append] at g2
            exact g2
          · rw [List.append_assoc, List.singleton_append] at g5
            exact g5

/-! Characterization of a successful removal at any level: the payload of the
removed entry equals the search key, the children stay well formed, at most
one child disappears, the entries of the subtree split exactly into the
removed entry, the remaining subtree and the reinsert list, an off recalc
flag means the rect was not touched, and the rect is still the tight union
afterwards. -/

theorem removeP_spec {T : Type} [DecidableEq T] (q : Rect) (d : T) :
    ∀ (k : Nat) (rect : Rect) (ns : List (Node T)) (ir : Rect) (id : T),
      (∀ n ∈ ns, WfChild k n) → rect = unionRect ns →
      (removeP q d k rect ns).2.2.1 = some (ir, id) →
      id = d ∧
        (∀ n ∈ (removeP q d k rect ns).1.2, WfChild k n) ∧
        ns.length - 1 ≤ (removeP q d k rect ns).1.2.length ∧
        (removeP q d k rect ns).1.2.length ≤ ns.length ∧
        (entriesL ns).Perm ((ir, id) ::
          (entriesL (removeP q d k rect ns).1.2 ++ (removeP q d k rect ns).2.1)) ∧
        ((removeP q d k rect ns).2.2.2 = false → (removeP q d k rect ns).1.1 = rect) ∧
        ((removeP q d k rect ns).1.2 ≠ [] →
          (removeP q d k rect ns).1.1 = unionRect (removeP q d k rect ns).1.2) := by
  intro k
  induction k with
  | zero =>
      intro rect ns ir id hwf hrect h
      simp only [removeP] at h ⊢
      obtain ⟨g1, g2, g3, g4, g5⟩ := removeLeafGo_spec rect d ns [] ir id h
      rw [List.nil_append] at g2 g5
      refine ⟨g1, ?_, ?_, ?_, ?_, ?_, ?_⟩
      · intro n hn
        exact hwf n (g2.symm.subset (List.mem_cons_of_mem _ hn))
      · omega
      · omega
      · have := entriesL_perm g2
        simpa [entriesL, entriesN] using this
      · intro hrec
        exact (g3 hrec).1
      · intro hne
        cases hrec : (removeLeafGo rect d [] ns).2.2 with
        | true =>
            rw [g4 hrec]
            exact recalcRect_eq_unionRect rect hne
        | false =>
            obtain ⟨hr1, hr2⟩ := g3 hrec
            have hedge : (unionRect ns).on_edge (Node.item ir id).rect = false := by
              rw [← hrect]
              exact hr2
            rw [hr1, unionRect_erase_inside g2 hne hedge]
            exact hrect
  | succ k ih =>
      have hgo : ∀ (B A : List (Node T)) (rect : Rect) (ir : Rect) (id : T),
          (∀ n ∈ A ++ B, WfChild (k + 1) n) → rect = unionRect (A ++ B) →
          (removeGo q d k rect A B).2.2.1 = some (ir, id) →
          id = d ∧
            (∀ n ∈ (removeGo q d k rect A B).1.2, WfChild (k + 1) n) ∧
            (A ++ B).length - 1 ≤ (removeGo q d k rect A B).1.2.length ∧
            (removeGo q d k rect A B).1.2.length ≤ (A ++ B).length ∧
            (entriesL (A ++ B)).Perm ((ir, id) ::
              (entriesL (removeGo q d k rect A B).1.2 ++ (removeGo q d k rect A B).2.1)) ∧
            ((removeGo q d k rect A B).2.2.2 = false →
              (removeGo q d k rect A B).1.1 = rect) ∧
            ((removeGo q d k rect A B).1.2 ≠ [] →
              (removeGo q d k rect A B).1.1 = unionRect (removeGo q d k rect A B).1.2) := by
        intro B
        induction B with
        | nil =>
            intro A rect ir id hwf hrect h
            exact absurd h (by simp [removeGo])
        | cons c B ihB =>
            intro A rect ir id hwf hrect h
            cases c with
            | item ir' id' =>
                have hbad : WfChild (k + 1) (Node.item ir' id') :=
                  hwf (Node.item ir' id')
                    (List.mem_append_right _ (List.mem_cons_self _ _))
                exact absurd hbad (by simp [WfChild])
            | parent crect cns =>
                have hcwf2 : crect = unionRect cns ∧ MIN_ITEMS ≤ cns.length ∧
                    cns.length ≤ MAX_ITEMS - 1 ∧ ∀ n ∈ cns, WfChild k n :=
                  hwf (Node.parent crect cns)
                    (List.mem_append_right _ (List.mem_cons_self _ _))
                obtain ⟨hcr, hclen, hcmax, hcall⟩ := hcwf2
                by_cases hint : crect.intersects q
                · simp only [removeGo, if_pos hint] at h ⊢
                  cases hres : (removeP q d k crect cns).2.2.1 with
                  | none =>
                      simp only [hres] at h ⊢
                      obtain ⟨hc1, _, _⟩ := removeP_none q d k crect cns hres
                      have hx : (removeP q d k crect cns).1.1 = crect := by rw [hc1]
                      have hy : (removeP q d k crect cns).1.2 = cns := by rw [hc1]
                      rw [hx, hy] at h ⊢
                      obtain ⟨g1, g2, g3, g4, g5, g6, g7⟩ :=
                        ihB (A ++ [Node.parent crect cns]) rect ir id
                          (by simpa [List.append_assoc] using hwf)
                          (by simpa [List.append_assoc] using hrect) h
                      refine ⟨g1, g2, ?_, ?_, ?_, g6, g7⟩
                      · simpa [List.append_assoc] using g3
                      · simpa [List.append_assoc] using g4
                      · simpa [List.append_assoc] using g5
                  | some it =>
                      simp only [hres] at h ⊢
                      by_cases hund : (removeP q d k crect cns).1.2.length < MIN_ITEMS
                      · simp only [if_pos hund] at h ⊢
                        obtain rfl : it = (ir, id) := Option.some_inj.mp h
                        obtain ⟨p1, p2, p3, p4, p5, p6, p7⟩ :=
                          ih crect cns ir id hcall hcr hres
                        have hprm : (A ++ swapFront B).Perm (A ++ B) :=
                          List.Perm.append_left A (swapFront_perm B)
                        refine ⟨p1, ?_, ?_, ?_, ?_, ?_, ?_⟩
                        · intro n hn
                          rcases List.mem_append.mp hn with hn | hn
                          · exact hwf n (List.mem_append_left _ hn)
                          · exact hwf n (List.mem_append_right _
                              (List.mem_cons_of_mem _ ((swapFront_perm B).subset hn)))
                        · have := hprm.length_eq
                          simp only [List.length_append, List.length_cons] at this ⊢
                          omega
                        · have := hprm.length_eq
                          simp only [List.length_append, List.length_cons] at this ⊢
                          omega
                        · rw [List.perm_iff_count]
                          intro a
                          have c1 := List.perm_iff_count.mp (entriesL_perm hprm) a
                          have c2 := List.perm_iff_count.mp
                            ((@flatten_perm_entries T).2 (removeP q d k crect cns).1.2) a
                          have c3 := List.perm_iff_count.mp p5 a
                          simp only [entriesL_append, entriesL, entriesN,
                            List.count_append, List.count_cons, List.count_nil,
                            List.append_nil] at c1 c2 c3 ⊢
                          omega
                        · intro hrec
                          rw [Bool.or_eq_false_iff] at hrec
                          simp [hrec.1, hrec.2]
                        · intro hne
                          cases hrec : ((removeP q d k crect cns).2.2.2 ||
                              rect.on_edge (removeP q d k crect cns).1.1) with
                          | true =>
                              simp only [hrec, if_true]
                              exact recalcRect_eq_unionRect rect hne
                          | false =>
                              rw [Bool.or_eq_false_iff] at hrec
                              obtain ⟨hb, he⟩ := hrec
                              have hx := p6 hb
                              rw [hx] at he
                              simp only [hb, he, Bool.or_self, Bool.false_eq_true, if_false]
                              have hperm2 : (A ++ Node.parent crect cns :: B).Perm
                                  (Node.parent crect cns :: (A ++ swapFront B)) :=
                                List.perm_middle.trans (List.Perm.cons _ hprm.symm)
                              have hedge : (unionRect (A ++ Node.parent crect cns :: B)).on_edge
                                  (Node.parent crect cns).rect = false := by
                                rw [← hrect]
                                exact he
                              rw [hrect]
                              exact (unionRect_erase_inside hperm2 hne hedge).symm
                      · simp only [if_neg hund] at h ⊢
                        obtain rfl : it = (ir, id) := Option.some_inj.mp h
                        obtain ⟨p1, p2, p3, p4, p5, p6, p7⟩ :=
                          ih crect cns ir id hcall hcr hres
                        have hne2 : (removeP q d k crect cns).1.2 ≠ [] := by
                          intro hcon
                          rw [hcon] at hund
                          exact hund (by simp [MIN_ITEMS])
                        have hwfc : WfChild (k + 1) (Node.parent
                            (removeP q d k crect cns).1.1 (removeP q d k crect cns).1.2) := by
                          refine ⟨p7 hne2, by omega, by omega, p2⟩
                        refine ⟨p1, ?_, ?_, ?_, ?_, ?_, ?_⟩
                        · intro n hn
                          rcases List.mem_append.mp hn with hn | hn
                          · exact hwf n (List.mem_append_left _ hn)
                          · rcases List.mem_cons.mp hn with rfl | hn
                            · exact hwfc
                            · exact hwf n (List.mem_append_right _
                                (List.mem_cons_of_mem _ hn))
                        · simp only [List.length_append, List.length_cons]
                          omega
                        · simp only [List.length_append, List.length_cons]
                          omega
                        · rw [List.perm_iff_count]
                          intro a
                          have c3 := List.perm_iff_count.mp p5 a
                          simp only [entriesL_append, entriesL, entriesN,
                            List.count_append, List.count_cons, List.count_nil,
                            List.append_nil] at c3 ⊢
                          omega
                        · intro hrec
                          simp [hrec]
                        · intro hne
                          cases hrec : (removeP q d k crect cns).2.2.2 with
                          | true =>
                              simp only [hrec, if_true]
                              exact recalcRect_eq_unionRect rect (by simp)
                          | false =>
                              simp only [hrec, Bool.false_eq_true, if_false]
                              have hx := p6 hrec
                              have hmap : (A ++ Node.parent (removeP q d k crect cns).1.1
                                    (removeP q d k crect cns).1.2 :: B).map Node.rect =
                                  (A ++ Node.parent crect cns :: B).map Node.rect := by
                                simp only [List.map_append, List.map_cons, Node.rect, hx]
                              rw [hrect]
                              exact (unionRect_congr_rects hmap).symm
                · simp only [removeGo, if_neg hint] at h ⊢
                  obtain ⟨g1, g2, g3, g4, g5, g6, g7⟩ :=
                    ihB (A ++ [Node.parent crect cns]) rect ir id
                      (by simpa [List.append_assoc] using hwf)
                      (by simpa [List.append_assoc] using hrect) h
                  refine ⟨g1, g2, ?_, ?_, ?_, g6, g7⟩
                  · simpa [List.append_assoc] using g3
                  · simpa [List.append_assoc] using g4
                  · simpa [List.append_assoc] using g5
      intro rect ns ir id hwf hrect h
      simp only [removeP] at h ⊢
      obtain ⟨g1, g2, g3, g4, g5, g6, g7⟩ := hgo ns [] rect ir id
        (by simpa using hwf) (by simpa using hrect) h
      rw [List.nil_append] at g3 g4 g5
      exact ⟨g1, g2, g3, g4, g5, g6, g7⟩

/-! The reinsert drain preserves well-formedness and accounts entries. -/

theorem reinsertAll_cons {T : Type} (t : RTree T) (x : Rect × T) (l : List (Rect × T)) :
    reinsertAll t (x :: l) = (reinsertAll t l).insert x.1 x.2 := by
  simp [reinsertAll, List.foldl_append]

theorem reinsertAll_wf {T : Type} [DecidableEq T] :
    ∀ (l : List (Rect × T)) (t : RTree T), WfTree t →
      WfTree (reinsertAll t l) ∧ (reinsertAll t l).length = t.length + l.length ∧
        (entriesOfTree (reinsertAll t l)).Perm (l ++ entriesOfTree t) := by
  intro l
  induction l with
  | nil =>
      intro t h
      exact ⟨h, rfl, List.Perm.refl _⟩
  | cons x l ih =>
      intro t h
      obtain ⟨ihwf, ihlen, ihent⟩ := ih t h
      obtain ⟨jwf, jlen, jent⟩ := insert_wf (reinsertAll t l) x.1 x.2 ihwf
      rw [reinsertAll_cons]
      refine ⟨jwf, ?_, ?_⟩
      · rw [jlen, ihlen]
        simp only [List.length_cons]
        omega
      · refine jent.trans ?_
        have : ((x.1, x.2) :: entriesOfTree (reinsertAll t l)).Perm
            ((x.1, x.2) :: (l ++ entriesOfTree t)) := ihent.cons _
        refine this.trans ?_
        simp only [Prod.mk.eta]
        exact (List.Perm.refl _).cons x |>.trans (List.Perm.of_eq rfl)

/-- A removal that returns nothing leaves the tree unchanged, at the tree
level: nothing was removed, nothing was reinserted, no rect, child list,
length or height was modified.  Holds for every tree, with no
well-formedness assumption. -/
theorem remove_miss {T : Type} [DecidableEq T] (t : RTree T) (r : Rect) (d : T)
    (h : (t.remove r d).2 = none) : (t.remove r d).1 = t := by
  cases t with
  | mk root tlen theight =>
      cases root with
      | none => rfl
      | some rn =>
          cases rn with
          | item a b => rfl
          | parent rect ns =>
              simp only [RTree.remove] at h ⊢
              cases hres : (removeP r d theight rect ns).2.2.1 with
              | some it =>
                  exfalso
                  simp only [hres] at h
                  exact Option.noConfusion h
              | none =>
                  simp only [hres]
                  obtain ⟨hc1, _, _⟩ := removeP_none r d theight rect ns hres
                  have hx : (removeP r d theight rect ns).1.1 = rect := by rw [hc1]
                  have hy : (removeP r d theight rect ns).1.2 = ns := by rw [hc1]
                  rw [hx, hy]

theorem entriesL_ne_nil_of_wf {T : Type} {k : Nat} {ns : List (Node T)}
    (hwf : ∀ n ∈ ns, WfChild k n) (hne : ns ≠ []) : entriesL ns ≠ [] := by
  cases ns with
  | nil => exact absurd rfl hne
  | cons n rest =>
      simp only [entriesL]
      intro hcon
      rw [List.append_eq_nil] at hcon
      exact wfChild_entries_ne_nil k n (hwf n (by simp)) hcon.1

theorem remove_wf {T : Type} [DecidableEq T] (t : RTree T) (r : Rect) (d : T)
    (h : WfTree t) :
    WfTree (t.remove r d).1 ∧
      ∀ ir id, (t.remove r d).2 = some (ir, id) → id = d ∧
        (t.remove r d).1.length + 1 = t.length ∧
        (entriesOfTree t).Perm ((ir, id) :: entriesOfTree (t.remove r d).1) := by
  cases t with
  | mk root tlen theight =>
      cases root with
      | none =>
          refine ⟨h, ?_⟩
          intro ir id hsome
          exact absurd hsome (by simp [RTree.remove])
      | some rn =>
          cases rn with
          | item a b => exact absurd h (by simp [WfTree])
          | parent rect ns =>
              have h2 : rect = unionRect ns ∧ ns ≠ [] ∧ ns.length ≤ MAX_ITEMS - 1 ∧
                  (0 < theight → MIN_ITEMS ≤ ns.length) ∧
                  (∀ n ∈ ns, WfChild theight n) ∧ tlen = (entriesL ns).length := h
              obtain ⟨hrect, hne, hmax, hminr, hall, hcount⟩ := h2
              simp only [RTree.remove]
              cases hres : (removeP r d theight rect ns).2.2.1 with
              | none =>
                  simp only [hres]
                  obtain ⟨hc1, _, _⟩ := removeP_none r d theight rect ns hres
                  have hx : (removeP r d theight rect ns).1.1 = rect := by rw [hc1]
                  have hy : (removeP r d theight rect ns).1.2 = ns := by rw [hc1]
                  rw [hx, hy]
                  exact ⟨h, fun ir id hsome => absurd hsome (by simp)⟩
              | some it =>
                  obtain ⟨ir0, id0⟩ := it
                  obtain ⟨p1, p2, p3, p4, p5, p6, p7⟩ :=
                    removeP_spec r d theight rect ns ir0 id0 hall hrect hres
                  simp only [hres]
                  have hlenEq : (entriesL ns).length = 1 +
                      ((entriesL (removeP r d theight rect ns).1.2).length +
                        (removeP r d theight rect ns).2.1.length) := by
                    have := p5.length_eq
                    simp only [List.length_cons, List.length_append] at this
                    omega
                  have hlen' : tlen - ((removeP r d theight rect ns).2.1.length + 1) =
                      (entriesL (removeP r d theight rect ns).1.2).length := by
                    rw [hcount]
                    omega
                  by_cases h0 : tlen - ((removeP r d theight rect ns).2.1.length + 1) = 0
                  · simp only [if_pos h0]
                    have hEN : entriesL (removeP r d theight rect ns).1.2 = [] := by
                      rw [← List.length_eq_zero]
                      omega
                    have hh0 : theight = 0 := by
                      by_contra hpos
                      have hpos' : 0 < theight := Nat.pos_of_ne_zero hpos
                      have hmin2 := hminr hpos'
                      have hN'ne : (removeP r d theight rect ns).1.2 ≠ [] := by
                        intro hc
                        rw [hc] at p3
                        simp only [List.length_nil] at p3
                        simp only [MIN_ITEMS] at hmin2
                        omega
                      exact entriesL_ne_nil_of_wf p2 hN'ne hEN
                    have hwf1 : @WfTree T
                        ⟨none, tlen - ((removeP r d theight rect ns).2.1.length + 1),
                          theight⟩ := ⟨hh0, h0⟩
                    have final := reinsertAll_wf (removeP r d theight rect ns).2.1 _ hwf1
                    refine ⟨final.1, ?_⟩
                    intro ir id hsome
                    obtain ⟨rfl, rfl⟩ : ir0 = ir ∧ id0 = id := by
                      have hv := hsome
                      simp only [Option.some_inj, Prod.mk.injEq] at hv
                      exact hv
                    refine ⟨p1, ?_, ?_⟩
                    · rw [final.2.1]
                      try dsimp only
                      omega
                    · rw [List.perm_iff_count]
                      intro a
                      have c1 := List.perm_iff_count.mp p5 a
                      have c2 := List.perm_iff_count.mp final.2.2 a
                      simp only [entriesOfTree, hEN, List.count_append, List.count_cons,
                        List.count_nil, entriesN] at c1 c2 ⊢
                      omega
                  · by_cases hcol : 0 < theight ∧ (removeP r d theight rect ns).1.2.length = 1
                    · simp only [if_neg h0, if_pos hcol]
                      obtain ⟨hpos, hone⟩ := hcol
                      obtain ⟨n0, hn0⟩ := List.length_eq_one.mp hone
                      rw [hn0]
                      simp only [List.getLast?_singleton]
                      obtain ⟨k0, rfl⟩ : ∃ k0, theight = k0 + 1 :=
                        ⟨theight - 1, by omega⟩
                      have hwfn0 : WfChild (k0 + 1) n0 := p2 n0 (by rw [hn0]; simp)
                      cases n0 with
                      | item a b => exact absurd hwfn0 (by simp [WfChild])
                      | parent nr nns =>
                          dsimp only
                          simp only [Nat.add_sub_cancel]
                          obtain ⟨hnr, hnmin, hnmax, hnall⟩ := hwfn0
                          have hnnsne : nns ≠ [] := by
                            intro hc
                            rw [hc] at hnmin
                            simp [MIN_ITEMS] at hnmin
                          have hentN' : entriesL (removeP r d (k0 + 1) rect ns).1.2 =
                              entriesL nns := by
                            rw [hn0]
                            simp [entriesL, entriesN]
                          have hwf1 : @WfTree T
                              ⟨some (Node.parent (recalcRect nr nns) nns),
                                tlen - ((removeP r d (k0 + 1) rect ns).2.1.length + 1),
                                k0⟩ := by
                            refine ⟨recalcRect_eq_unionRect nr hnnsne, hnnsne, hnmax,
                              fun _ => hnmin, hnall, ?_⟩
                            rw [hlen', hentN']
                          have final := reinsertAll_wf (removeP r d (k0 + 1) rect ns).2.1 _ hwf1
                          refine ⟨final.1, ?_⟩
                          intro ir id hsome
                          obtain ⟨rfl, rfl⟩ : ir0 = ir ∧ id0 = id := by
                            have hv := hsome
                            simp only [Option.some_inj, Prod.mk.injEq] at hv
                            exact hv
                          refine ⟨p1, ?_, ?_⟩
                          · rw [final.2.1]
                            try dsimp only
                            omega
                          · rw [List.perm_iff_count]
                            intro a
                            have c1 := List.perm_iff_count.mp p5 a
                            have c2 := List.perm_iff_count.mp final.2.2 a
                            rw [hentN'] at c1
                            simp only [entriesOfTree, entriesN, List.count_append,
                              List.count_cons, List.count_nil] at c1 c2 ⊢
                            omega
                    · have hN'ne : (removeP r d theight rect ns).1.2 ≠ [] := by
                        intro hc
                        rw [hc] at hlen'
                        simp only [entriesL, List.length_nil] at hlen'
                        exact h0 hlen'
                      have hmin' : 0 < theight →
                          MIN_ITEMS ≤ (removeP r d theight rect ns).1.2.length := by
                        intro hpos
                        have hne1 : (removeP r d theight rect ns).1.2.length ≠ 1 := by
                          intro hc
                          exact hcol ⟨hpos, hc⟩
                        have hge1 : 1 ≤ (removeP r d theight rect ns).1.2.length :=
                          List.length_pos.mpr hN'ne
                        simp only [MIN_ITEMS]
                        omega
                      cases hflag : (removeP r d theight rect ns).2.2.2 with
                      | true =>
                          simp only [if_neg h0, if_neg hcol, hflag, if_true]
                          have hwf1 : @WfTree T
                              ⟨some (Node.parent
                                  (recalcRect (removeP r d theight rect ns).1.1
                                    (removeP r d theight rect ns).1.2)
                                  (removeP r d theight rect ns).1.2),
                                tlen - ((removeP r d theight rect ns).2.1.length + 1),
                                theight⟩ :=
                            ⟨recalcRect_eq_unionRect _ hN'ne, hN'ne, by omega,
                              hmin', p2, hlen'⟩
                          have final := reinsertAll_wf (removeP r d theight rect ns).2.1 _ hwf1
                          refine ⟨final.1, ?_⟩
                          intro ir id hsome
                          obtain ⟨rfl, rfl⟩ : ir0 = ir ∧ id0 = id := by
                            have hv := hsome
                            simp only [Option.some_inj, Prod.mk.injEq] at hv
                            exact hv
                          refine ⟨p1, ?_, ?_⟩
                          · rw [final.2.1]
                            try dsimp only
                            omega
                          · rw [List.perm_iff_count]
                            intro a
                            have c1 := List.perm_iff_count.mp p5 a
                            have c2 := List.perm_iff_count.mp final.2.2 a
                            simp only [entriesOfTree, entriesN, List.count_append,
                              List.count_cons, List.count_nil] at c1 c2 ⊢
                            omega
                      | false =>
                          simp only [if_neg h0, if_neg hcol, hflag, Bool.false_eq_true,
                            if_false]
                          have hwf1 : @WfTree T
                              ⟨some (Node.parent (removeP r d theight rect ns).1.1
                                  (removeP r d theight rect ns).1.2),
                                tlen - ((removeP r d theight rect ns).2.1.length + 1),
                                theight⟩ :=
                            ⟨p7 hN'ne, hN'ne, by omega, hmin', p2, hlen'⟩
                          have final := reinsertAll_wf (removeP r d theight rect ns).2.1 _ hwf1
                          refine ⟨final.1, ?_⟩
                          intro ir id hsome
                          obtain ⟨rfl, rfl⟩ : ir0 = ir ∧ id0 = id := by
                            have hv := hsome
                            simp only [Option.some_inj, Prod.mk.injEq] at hv
                            exact hv
                          refine ⟨p1, ?_, ?_⟩
                          · rw [final.2.1]
                            try dsimp only
                            omega
                          · rw [List.perm_iff_count]
                            intro a
                            have c1 := List.perm_iff_count.mp p5 a
                            have c2 := List.perm_iff_count.mp final.2.2 a
                            simp only [entriesOfTree, entriesN, List.count_append,
                              List.count_cons, List.count_nil] at c1 c2 ⊢
                            omega

/-! Well-formedness along the public interface, and per-parent facts. -/

theorem reachable_wf {T : Type} [DecidableEq T] {t : RTree T} (h : Reachable t) :
    WfTree t := by
  induction h with
  | empty => exact ⟨rfl, rfl⟩
  | insert r d _ ih => exact (insert_wf _ r d ih).1
  | remove r d _ ih => exact (remove_wf _ r d ih).1

theorem parentIn_wf {T : Type} {t : RTree T} {r : Rect} {ns : List (Node T)}
    (hwf : WfTree t) (hp : ParentIn t r ns) :
    ∃ k, (∀ n ∈ ns, WfChild k n) ∧ r = unionRect ns ∧ ns ≠ [] ∧
      ns.length ≤ MAX_ITEMS - 1 := by
  induction hp with
  | @root r2 ns2 hroot =>
      have hwf2 : r2 = unionRect ns2 ∧ ns2 ≠ [] ∧ ns2.length ≤ MAX_ITEMS - 1 ∧
          (0 < t.height → MIN_ITEMS ≤ ns2.length) ∧
          (∀ n ∈ ns2, WfChild t.height n) ∧ t.length = (entriesL ns2).length := by
        simp only [WfTree, hroot] at hwf
        exact hwf
      exact ⟨t.height, hwf2.2.2.2.2.1, hwf2.1, hwf2.2.1, hwf2.2.2.1⟩
  | child hp hmem ih =>
      obtain ⟨k, hall, _, _, _⟩ := ih
      have hw := hall _ hmem
      cases k with
      | zero => exact absurd hw (by simp [WfChild])
      | succ k' =>
          obtain ⟨h1, h2, h3, h4⟩ := hw
          refine ⟨k', h4, h1, ?_, h3⟩
          intro hc
          rw [hc] at h2
          simp [MIN_ITEMS] at h2

theorem unionRect_attained {T : Type} {ns : List (Node T)} (h : ns ≠ []) :
    (∃ c ∈ ns, (Node.rect c).min.x = (unionRect ns).min.x) ∧
      (∃ c ∈ ns, (Node.rect c).min.y = (unionRect ns).min.y) ∧
      (∃ c ∈ ns, (Node.rect c).max.x = (unionRect ns).max.x) ∧
      (∃ c ∈ ns, (Node.rect c).max.y = (unionRect ns).max.y) := by
  cases ns with
  | nil => exact absurd rfl h
  | cons n rest =>
      have e1 : (unionRect (n :: rest)).min.x =
          listMin n.rect.min.x (rest.map fun m => m.rect.min.x) := by
        rw [unionRect_eq]
      have e2 : (unionRect (n :: rest)).min.y =
          listMin n.rect.min.y (rest.map fun m => m.rect.min.y) := by
        rw [unionRect_eq]
      have e3 : (unionRect (n :: rest)).max.x =
          listMax n.rect.max.x (rest.map fun m => m.rect.max.x) := by
        rw [unionRect_eq]
      have e4 : (unionRect (n :: rest)).max.y =
          listMax n.rect.max.y (rest.map fun m => m.rect.max.y) := by
        rw [unionRect_eq]
      rw [e1, e2, e3, e4]
      refine ⟨?_, ?_, ?_, ?_⟩
      · rcases List.mem_cons.mp
          (listMin_self_mem n.rect.min.x (rest.map fun m => m.rect.min.x)) with hv | hv
        · exact ⟨n, List.mem_cons_self _ _, hv.symm⟩
        · obtain ⟨c, hc, hfc⟩ := List.mem_map.mp hv
          exact ⟨c, List.mem_cons_of_mem _ hc, hfc⟩
      · rcases List.mem_cons.mp
          (listMin_self_mem n.rect.min.y (rest.map fun m => m.rect.min.y)) with hv | hv
        · exact ⟨n, List.mem_cons_self _ _, hv.symm⟩
        · obtain ⟨c, hc, hfc⟩ := List.mem_map.mp hv
          exact ⟨c, List.mem_cons_of_mem _ hc, hfc⟩
      · rcases List.mem_cons.mp
          (listMax_self_mem n.rect.max.x (rest.map fun m => m.rect.max.x)) with hv | hv
        · exact ⟨n, List.mem_cons_self _ _, hv.symm⟩
        · obtain ⟨c, hc, hfc⟩ := List.mem_map.mp hv
          exact ⟨c, List.mem_cons_of_mem _ hc, hfc⟩
      · rcases List.mem_cons.mp
          (listMax_self_mem n.rect.max.y (rest.map fun m => m.rect.max.y)) with hv | hv
        · exact ⟨n, List.mem_cons_self _ _, hv.symm⟩
        · obtain ⟨c, hc, hfc⟩ := List.mem_map.mp hv
          exact ⟨c, List.mem_cons_of_mem _ hc, hfc⟩

/-! The lazy iterators, with fuel that always suffices. -/

theorem scanSteps_eq {T : Type} :
    ∀ (fuel : Nat) (stack : List (List (Node T))), framesMeasure stack ≤ fuel →
      scanSteps fuel stack = entriesLL stack := by
  intro fuel
  induction fuel with
  | zero =>
      intro stack hf
      cases stack with
      | nil => rfl
      | cons f rest =>
          exfalso
          simp only [framesMeasure] at hf
          omega
  | succ fuel ih =>
      intro stack hf
      cases stack with
      | nil => rfl
      | cons f rest =>
          cases f with
          | nil =>
              simp only [scanSteps, entriesLL, entriesL, List.nil_append]
              exact ih rest (by simp only [framesMeasure, listSize] at hf; omega)
          | cons n ns =>
              cases n with
              | item r d =>
                  simp only [scanSteps, entriesLL, entriesL, entriesN,
                    List.cons_append, List.nil_append]
                  rw [ih (ns :: rest) (by
                    simp only [framesMeasure, listSize, nodeSize] at hf ⊢
                    omega)]
                  simp [entriesLL]
              | parent pr cns =>
                  simp only [scanSteps, entriesLL, entriesL, entriesN]
                  rw [ih (cns :: ns :: rest) (by
                    simp only [framesMeasure, listSize, nodeSize] at hf ⊢
                    omega)]
                  simp [entriesLL]

theorem scan_eq_entries {T : Type} {t : RTree T} (h : WfTree t) :
    scanList t = entriesOfTree t := by
  obtain ⟨root, len, height⟩ := t
  cases root with
  | none => rfl
  | some n =>
      cases n with
      | item a b => exact absurd h (by simp [WfTree])
      | parent rect ns =>
          show scanSteps (framesMeasure [ns]) [ns] = entriesN (Node.parent rect ns)
          rw [scanSteps_eq (framesMeasure [ns]) [ns] le_rfl]
          simp [entriesLL, entriesN]

theorem searchSteps_eq {T : Type} (q : Rect) :
    ∀ (fuel : Nat) (stack : List (List (Node T))), framesMeasure stack ≤ fuel →
      searchSteps q fuel stack = searchFlatLL q stack := by
  intro fuel
  induction fuel with
  | zero =>
      intro stack hf
      cases stack with
      | nil => rfl
      | cons f rest =>
          exfalso
          simp only [framesMeasure] at hf
          omega
  | succ fuel ih =>
      intro stack hf
      cases stack with
      | nil => rfl
      | cons f rest =>
          cases f with
          | nil =>
              simp only [searchSteps, searchFlatLL, searchFlatL, List.nil_append]
              exact ih rest (by simp only [framesMeasure, listSize] at hf; omega)
          | cons n ns =>
              have hfuel : framesMeasure (ns :: rest) ≤ fuel := by
                have h1 := one_le_nodeSize n
                simp only [framesMeasure, listSize] at hf ⊢
                omega
              cases hg : n.rect.intersects q with
              | false =>
                  simp only [searchSteps, searchFlatLL, searchFlatL, hg,
                    Bool.false_eq_true, if_false, List.nil_append]
                  rw [ih (ns :: rest) hfuel]
                  simp [searchFlatLL]
              | true =>
                  cases n with
                  | item r d =>
                      simp only [searchSteps, searchFlatLL, searchFlatL, searchFlatHit,
                        hg, if_true]
                      rw [ih (ns :: rest) hfuel]
                      simp [searchFlatLL]
                  | parent pr cns =>
                      simp only [searchSteps, searchFlatLL, searchFlatL, searchFlatHit,
                        hg, if_true]
                      rw [ih (cns :: ns :: rest) (by
                        simp only [framesMeasure, listSize, nodeSize] at hf ⊢
                        omega)]
                      simp [searchFlatLL]

theorem search_eq_flat {T : Type} (t : RTree T) (q : Rect) :
    searchList t q = searchFlatTree t q := by
  obtain ⟨root, len, height⟩ := t
  cases root with
  | none => rfl
  | some n =>
      cases n with
      | item a b => rfl
      | parent rect ns =>
          show searchSteps q (framesMeasure [ns]) [ns] = searchFlatL q ns
          rw [searchSteps_eq q (framesMeasure [ns]) [ns] le_rfl]
          simp [searchFlatLL]

theorem searchFlat_filter {T : Type} (q : Rect) :
    (∀ n : Node T, ∀ k, WfChild k n →
      (if n.rect.intersects q then searchFlatHit q n else []) =
        (entriesN n).filter fun e => e.1.intersects q) ∧
    (∀ ns : List (Node T), ∀ k, (∀ n ∈ ns, WfChild k n) →
      searchFlatL q ns = (entriesL ns).filter fun e => e.1.intersects q) := by
  refine node_mutual_ind ?_ ?_ ?_ ?_
  · intro r d k _
    simp only [Node.rect, entriesN]
    by_cases hg : r.intersects q = true
    · simp [searchFlatHit, List.filter, hg]
    · simp [searchFlatHit, List.filter, hg]
  · intro r ns ihQ k hwf
    cases k with
    | zero => exact absurd hwf (by simp [WfChild])
    | succ k' =>
        obtain ⟨hr, hmin, hmax, hall⟩ := hwf
        simp only [Node.rect, entriesN]
        by_cases hg : r.intersects q = true
        · simp only [if_pos hg]
          show searchFlatL q ns = _
          exact ihQ k' hall
        · simp only [if_neg hg]
          symm
          rw [List.filter_eq_nil_iff]
          intro e he
          have hold : r.holds e.1 := by
            have := wfChild_entries_holds (k' + 1) (Node.parent r ns)
              ⟨hr, hmin, hmax, hall⟩ e (by simpa [entriesN] using he)
            simpa [Node.rect] using this
          intro hinter
          exact hg (holds_intersects hold (by simpa using hinter))
  · intro k _
    simp [searchFlatL, entriesL]
  · intro n ns ihP ihQ k hall
    simp only [searchFlatL, entriesL, List.filter_append]
    rw [ihP k (hall n (List.mem_cons_self _ _)),
      ihQ k (fun m hm => hall m (List.mem_cons_of_mem _ hm))]

/-! A removal whose payload occurs nowhere finds nothing; a removal whose
payload occurs on an entry whose rect meets the query finds something. -/

theorem removeLeafGo_fresh {T : Type} [DecidableEq T] (rect : Rect) (d : T) :
    ∀ (B A : List (Node T)), (∀ e ∈ entriesL B, e.2 ≠ d) →
      (removeLeafGo rect d A B).2.1 = none := by
  intro B
  induction B with
  | nil => intro A _; simp [removeLeafGo]
  | cons c B ih =>
      intro A h
      cases c with
      | item ir id =>
          have hcons : entriesL (Node.item ir id :: B) = (ir, id) :: entriesL B := by
            simp [entriesL, entriesN]
          have hid : id ≠ d := h (ir, id) (by rw [hcons]; exact List.mem_cons_self _ _)
          simp only [removeLeafGo, if_neg hid]
          exact ih _ fun e he => h e (by rw [hcons]; exact List.mem_cons_of_mem _ he)
      | parent cr cn =>
          have hcons : entriesL (Node.parent cr cn :: B) =
              entriesL cn ++ entriesL B := by
            simp [entriesL, entriesN]
          simp only [removeLeafGo]
          exact ih _ fun e he => h e (by rw [hcons]; exact List.mem_append_right _ he)

theorem removeP_fresh {T : Type} [DecidableEq T] (q : Rect) (d : T) :
    ∀ (h : Nat) (rect : Rect) (ns : List (Node T)),
      (∀ e ∈ entriesL ns, e.2 ≠ d) → (removeP q d h rect ns).2.2.1 = none := by
  intro h
  induction h with
  | zero =>
      intro rect ns hf
      simp only [removeP]
      exact removeLeafGo_fresh rect d ns [] hf
  | succ h ih =>
      have hgo : ∀ (B A : List (Node T)) (rect : Rect),
          (∀ e ∈ entriesL B, e.2 ≠ d) → (removeGo q d h rect A B).2.2.1 = none := by
        intro B
        induction B with
        | nil => intro A rect _; simp [removeGo]
        | cons c B ihB =>
            intro A rect hB
            cases c with
            | item ir id =>
                have hcons : entriesL (Node.item ir id :: B) =
                    (ir, id) :: entriesL B := by
                  simp [entriesL, entriesN]
                simp only [removeGo]
                exact ihB _ _ fun e he =>
                  hB e (by rw [hcons]; exact List.mem_cons_of_mem _ he)
            | parent crect cns =>
                have hcons : entriesL (Node.parent crect cns :: B) =
                    entriesL cns ++ entriesL B := by
                  simp [entriesL, entriesN]
                have hBtail : ∀ e ∈ entriesL B, e.2 ≠ d := fun e he =>
                  hB e (by rw [hcons]; exact List.mem_append_right _ he)
                by_cases hint : crect.intersects q
                · have hnone : (removeP q d h crect cns).2.2.1 = none :=
                    ih crect cns fun e he =>
                      hB e (by rw [hcons]; exact List.mem_append_left _ he)
                  simp only [removeGo, if_pos hint, hnone]
                  exact ihB _ _ hBtail
                · simp only [removeGo, if_neg hint]
                  exact ihB _ _ hBtail
      intro rect ns hf
      simp only [removeP]
      exact hgo ns [] rect hf

theorem removeLeafGo_finds {T : Type} [DecidableEq T] (rect : Rect) (d : T) :
    ∀ (B A : List (Node T)), (∀ n ∈ B, WfChild 0 n) →
      (∃ e ∈ entriesL B, e.2 = d) → (removeLeafGo rect d A B).2.1 ≠ none := by
  intro B
  induction B with
  | nil =>
      intro A _ hex
      obtain ⟨e, he, _⟩ := hex
      exact absurd he (by simp [entriesL])
  | cons c B ih =>
      intro A hwf hex
      cases c with
      | item ir id =>
          by_cases hid : id = d
          · simp only [removeLeafGo, if_pos hid]
            exact fun hc => Option.noConfusion hc
          · have hcons : entriesL (Node.item ir id :: B) =
                (ir, id) :: entriesL B := by
              simp [entriesL, entriesN]
            simp only [removeLeafGo, if_neg hid]
            refine ih _ (fun n hn => hwf n (List.mem_cons_of_mem _ hn)) ?_
            obtain ⟨e, he, hed⟩ := hex
            rw [hcons] at he
            rcases List.mem_cons.mp he with he' | he'
            · exfalso
              rw [he'] at hed
              exact hid hed
            · exact ⟨e, he', hed⟩
      | parent cr cn =>
          exact absurd (hwf _ (List.mem_cons_self _ _)) (by simp [WfChild])

theorem removeP_finds {T : Type} [DecidableEq T] (q : Rect) (d : T) :
    ∀ (h : Nat) (rect : Rect) (ns : List (Node T)), (∀ n ∈ ns, WfChild h n) →
      (∃ e ∈ entriesL ns, e.2 = d ∧ e.1.intersects q = true) →
      (removeP q d h rect ns).2.2.1 ≠ none := by
  intro h
  induction h with
  | zero =>
      intro rect ns hwf hex
      simp only [removeP]
      refine removeLeafGo_finds rect d ns [] hwf ?_
      obtain ⟨e, he, hed, _⟩ := hex
      exact ⟨e, he, hed⟩
  | succ h ih =>
      have hgo : ∀ (B A : List (Node T)) (rect : Rect), (∀ n ∈ B, WfChild (h + 1) n) →
          (∃ e ∈ entriesL B, e.2 = d ∧ e.1.intersects q = true) →
          (removeGo q d h rect A B).2.2.1 ≠ none := by
        intro B
        induction B with
        | nil =>
            intro A rect _ hex
            obtain ⟨e, he, _⟩ := hex
            exact absurd he (by simp [entriesL])
        | cons c B ihB =>
            intro A rect hwf hex
            cases c with
            | item ir id =>
                exact absurd (hwf _ (List.mem_cons_self _ _)) (by simp [WfChild])
            | parent crect cns =>
                have hwfc := hwf _ (List.mem_cons_self _ _)
                have hcons : entriesL (Node.parent crect cns :: B) =
                    entriesL cns ++ entriesL B := by
                  simp [entriesL, entriesN]
                have hwfB : ∀ n ∈ B, WfChild (h + 1) n := fun n hn =>
                  hwf n (List.mem_cons_of_mem _ hn)
                obtain ⟨e, he, hed, hei⟩ := hex
                rw [hcons] at he
                rcases List.mem_append.mp he with he' | he'
                · have hint : crect.intersects q = true := by
                    have hold : crect.holds e.1 := by
                      have := wfChild_entries_holds (h + 1) (Node.parent crect cns)
                        hwfc e (by simpa [entriesN] using he')
                      simpa [Node.rect] using this
                    exact holds_intersects hold hei
                  have hcwf : ∀ n ∈ cns, WfChild h n := hwfc.2.2.2
                  have hfind : (removeP q d h crect cns).2.2.1 ≠ none :=
                    ih crect cns hcwf ⟨e, he', hed, hei⟩
                  simp only [removeGo, if_pos (by simp [hint] : crect.intersects q)]
                  cases hres : (removeP q d h crect cns).2.2.1 with
                  | none => exact absurd hres hfind
                  | some it =>
                      by_cases hund : (removeP q d h crect cns).1.2.length < MIN_ITEMS
                      · simp only [if_pos hund]
                        exact fun hc => Option.noConfusion hc
                      · simp only [if_neg hund]
                        exact fun hc => Option.noConfusion hc
                · by_cases hint : crect.intersects q
                  · simp only [removeGo, if_pos hint]
                    cases hres : (removeP q d h crect cns).2.2.1 with
                    | none => exact ihB _ _ hwfB ⟨e, he', hed, hei⟩
                    | some it =>
                        by_cases hund :
                            (removeP q d h crect cns).1.2.length < MIN_ITEMS
                        · simp only [if_pos hund]
                          exact fun hc => Option.noConfusion hc
                        · simp only [if_neg hund]
                          exact fun hc => Option.noConfusion hc
                  · simp only [removeGo, if_neg hint]
                    exact ihB _ _ hwfB ⟨e, he', hed, hei⟩
      intro rect ns hwf hex
      simp only [removeP]
      exact hgo ns [] rect hwf hex

theorem remove_hit {T : Type} [DecidableEq T] (t : RTree T) (r : Rect) (d : T)
    (hwf : WfTree t) (hmem : ∃ e ∈ entriesOfTree t, e.2 = d ∧ e.1.intersects r = true) :
    ∃ p, (t.remove r d).2 = some p := by
  obtain ⟨root, tlen, theight⟩ := t
  cases root with
  | none =>
      obtain ⟨e, he, _⟩ := hmem
      exact absurd he (by simp [entriesOfTree])
  | some rn =>
      cases rn with
      | item a b => exact absurd hwf (by simp [WfTree])
      | parent rect ns =>
          obtain ⟨hrect, hne, hmax, hminr, hall, hcount⟩ :
            rect = unionRect ns ∧ ns ≠ [] ∧ ns.length ≤ MAX_ITEMS - 1 ∧
              (0 < theight → MIN_ITEMS ≤ ns.length) ∧
              (∀ n ∈ ns, WfChild theight n) ∧ tlen = (entriesL ns).length := hwf
          have hfind : (removeP r d theight rect ns).2.2.1 ≠ none := by
            refine removeP_finds r d theight rect ns hall ?_
            obtain ⟨e, he, hp⟩ := hmem
            exact ⟨e, by simpa [entriesOfTree, entriesN] using he, hp⟩
          simp only [RTree.remove]
          cases hres : (removeP r d theight rect ns).2.2.1 with
          | none => exact absurd hres hfind
          | some it => exact ⟨it, rfl⟩

/-! The nearby queue: the popped element is a minimum, hereditarily accurate
rects, and monotonicity of the squared box distance to a point. -/

theorem unionOkL_mem {T : Type} :
    ∀ {ns : List (Node T)} {n : Node T}, UnionOkL ns → n ∈ ns → UnionOkN n := by
  intro ns
  induction ns with
  | nil =>
      intro n _ h
      simp at h
  | cons m ms ih =>
      intro n hok hmem
      simp only [UnionOkL] at hok
      rcases List.mem_cons.mp hmem with h | h
      · exact h ▸ hok.1
      · exact ih hok.2 h

theorem wfChild_unionOk {T : Type} :
    ∀ (k : Nat) (n : Node T), WfChild k n → UnionOkN n := by
  intro k
  induction k with
  | zero =>
      intro n hw
      cases n with
      | item r d => simp [UnionOkN]
      | parent r ns => exact absurd hw (by simp [WfChild])
  | succ k ih =>
      intro n hw
      cases n with
      | item r d => exact absurd hw (by simp [WfChild])
      | parent r ns =>
          obtain ⟨hr, _, _, hall⟩ := hw
          have hl : ∀ ms : List (Node T), (∀ x ∈ ms, WfChild k x) → UnionOkL ms := by
            intro ms
            induction ms with
            | nil => intro _; simp [UnionOkL]
            | cons m2 ms2 ihm =>
                intro hms
                simp only [UnionOkL]
                exact ⟨ih m2 (hms m2 (List.mem_cons_self _ _)),
                  ihm fun x hx => hms x (List.mem_cons_of_mem _ hx)⟩
          simp only [UnionOkN]
          exact ⟨hr, hl ns hall⟩

theorem wfTree_unionOk {T : Type} {t : RTree T} {n : Node T} (hwf : WfTree t)
    (hroot : t.root = some n) : UnionOkN n := by
  cases n with
  | item a b =>
      exfalso
      simp only [WfTree, hroot] at hwf
  | parent rect ns =>
      have hw : rect = unionRect ns ∧ ns ≠ [] ∧ ns.length ≤ MAX_ITEMS - 1 ∧
          (0 < t.height → MIN_ITEMS ≤ ns.length) ∧
          (∀ x ∈ ns, WfChild t.height x) ∧ t.length = (entriesL ns).length := by
        simp only [WfTree, hroot] at hwf
        exact hwf
      obtain ⟨hrect, _, _, _, hall, _⟩ := hw
      have hl : ∀ ms : List (Node T), (∀ x ∈ ms, WfChild t.height x) →
          UnionOkL ms := by
        intro ms
        induction ms with
        | nil => intro _; simp [UnionOkL]
        | cons m2 ms2 ihm =>
            intro hms
            simp only [UnionOkL]
            exact ⟨wfChild_unionOk t.height m2 (hms m2 (List.mem_cons_self _ _)),
              ihm fun x hx => hms x (List.mem_cons_of_mem _ hx)⟩
      simp only [UnionOkN]
      exact ⟨hrect, hl ns hall⟩

theorem box_dist_nonneg (r q : Rect) : 0 ≤ r.box_dist q := by
  simp only [Rect.box_dist]
  exact add_nonneg (mul_self_nonneg _) (mul_self_nonneg _)

theorem box_dist_point_mono {R r : Rect} (p : Point) (hc : R.holds r) :
    R.box_dist (Rect.point p.x p.y) ≤ r.box_dist (Rect.point p.x p.y) := by
  obtain ⟨h1, h2, h3, h4⟩ := hc
  simp only [Rect.box_dist, Rect.point, fmax_eq, fmin_eq]
  have h0x : 0 ≤ max R.min.x p.x - min R.max.x p.x := by
    have ha := le_max_right R.min.x p.x
    have hb := min_le_right R.max.x p.x
    linarith
  have hmx : max R.min.x p.x - min R.max.x p.x ≤
      max r.min.x p.x - min r.max.x p.x := by
    have ha : max R.min.x p.x ≤ max r.min.x p.x := max_le_max h1 le_rfl
    have hb : min r.max.x p.x ≤ min R.max.x p.x := min_le_min h2 le_rfl
    linarith
  have h0y : 0 ≤ max R.min.y p.y - min R.max.y p.y := by
    have ha := le_max_right R.min.y p.y
    have hb := min_le_right R.max.y p.y
    linarith
  have hmy : max R.min.y p.y - min R.max.y p.y ≤
      max r.min.y p.y - min r.max.y p.y := by
    have ha : max R.min.y p.y ≤ max r.min.y p.y := max_le_max h3 le_rfl
    have hb : min r.max.y p.y ≤ min R.max.y p.y := min_le_min h4 le_rfl
    linarith
  exact add_le_add (mul_self_le_mul_self h0x hmx) (mul_self_le_mul_self h0y hmy)

theorem popMinQ_spec {T : Type} :
    ∀ (l : List (ℚ × Node T)) (m : ℚ × Node T) (rest : List (ℚ × Node T)),
      popMinQ l = some (m, rest) →
      l.Perm (m :: rest) ∧ ∀ x ∈ l, m.1 ≤ x.1 := by
  intro l
  induction l with
  | nil =>
      intro m rest h
      exact absurd h (by simp [popMinQ])
  | cons x l0 ih =>
      intro m rest h
      cases hm : popMinQ l0 with
      | none =>
          have hl0 : l0 = [] := by
            cases l0 with
            | nil => rfl
            | cons y ys =>
                exfalso
                cases h2 : popMinQ ys with
                | none => simp [popMinQ, h2] at hm
                | some p2 =>
                    obtain ⟨m2, r2⟩ := p2
                    by_cases hcc : m2.1 < y.1
                    · simp [popMinQ, h2, hcc] at hm
                    · simp [popMinQ, h2, hcc] at hm
          subst hl0
          have hx : some (x, ([] : List (ℚ × Node T))) = some (m, rest) := by
            rw [← h]
            simp [popMinQ]
          obtain ⟨rfl, rfl⟩ : x = m ∧ ([] : List (ℚ × Node T)) = rest := by
            have hinj := Option.some_inj.mp hx
            exact ⟨congrArg Prod.fst hinj, congrArg Prod.snd hinj⟩
          refine ⟨List.Perm.refl _, ?_⟩
          intro z hz
          rcases List.mem_cons.mp hz with h3 | h3
          · rw [h3]
          · simp at h3
      | some p0 =>
          obtain ⟨m0, rest0⟩ := p0
          obtain ⟨hperm0, hmin0⟩ := ih m0 rest0 hm
          have hh : (if m0.1 < x.1 then some (m0, x :: rest0) else some (x, l0)) =
              some (m, rest) := by
            rw [← h]
            simp [popMinQ, hm]
          by_cases hlt : m0.1 < x.1
          · rw [if_pos hlt] at hh
            obtain ⟨rfl, rfl⟩ : m0 = m ∧ x :: rest0 = rest := by
              have hinj := Option.some_inj.mp hh
              exact ⟨congrArg Prod.fst hinj, congrArg Prod.snd hinj⟩
            refine ⟨(hperm0.cons x).trans (List.Perm.swap m0 x rest0), ?_⟩
            intro z hz
            rcases List.mem_cons.mp hz with h3 | h3
            · rw [h3]
              exact le_of_lt hlt
            · exact hmin0 z h3
          · rw [if_neg hlt] at hh
            obtain ⟨rfl, rfl⟩ : x = m ∧ l0 = rest := by
              have hinj := Option.some_inj.mp hh
              exact ⟨congrArg Prod.fst hinj, congrArg Prod.snd hinj⟩
            refine ⟨List.Perm.refl _, ?_⟩
            intro z hz
            rcases List.mem_cons.mp hz with h3 | h3
            · rw [h3]
            · exact le_trans (le_of_not_lt hlt) (hmin0 z h3)

theorem nearbyKey_box {T : Type} (qp : Rect) (n : Node T) :
    nearbyKey (fun r _ => r.box_dist qp) n = (Node.rect n).box_dist qp := by
  cases n <;> rfl

theorem nearbySteps_sorted {T : Type} (p : Point) :
    ∀ (fuel : Nat) (queue : List (ℚ × Node T)),
      (∀ x ∈ queue, UnionOkN x.2 ∧
        x.1 ≤ (Node.rect x.2).box_dist (Rect.point p.x p.y) ∧
        ∀ r d, x.2 = Node.item r d → x.1 = r.box_dist (Rect.point p.x p.y)) →
      (nearbySteps (fun r _ => r.box_dist (Rect.point p.x p.y)) fuel queue).Pairwise
          (fun a b => a.2.2 ≤ b.2.2) ∧
        (∀ c : ℚ, (∀ x ∈ queue, c ≤ x.1) →
          ∀ y ∈ nearbySteps (fun r _ => r.box_dist (Rect.point p.x p.y)) fuel queue,
            c ≤ y.2.2) ∧
        (∀ y ∈ nearbySteps (fun r _ => r.box_dist (Rect.point p.x p.y)) fuel queue,
          y.2.2 = y.1.box_dist (Rect.point p.x p.y)) := by
  intro fuel
  induction fuel with
  | zero =>
      intro queue hInv
      refine ⟨by simp [nearbySteps], by simp [nearbySteps], by simp [nearbySteps]⟩
  | succ fuel ih =>
      intro queue hInv
      rcases hpop : popMinQ queue with _ | q0
      · refine ⟨?_, ?_, ?_⟩ <;> simp [nearbySteps, hpop]
      · obtain ⟨⟨dd, n⟩, rest⟩ := q0
        obtain ⟨hqperm, hqmin⟩ := popMinQ_spec queue (dd, n) rest hpop
        have hrest_mem : ∀ x ∈ rest, x ∈ queue := fun x hx =>
          hqperm.mem_iff.mpr (List.mem_cons_of_mem _ hx)
        have hRestInv : ∀ x ∈ rest, UnionOkN x.2 ∧
            x.1 ≤ (Node.rect x.2).box_dist (Rect.point p.x p.y) ∧
            ∀ r d, x.2 = Node.item r d → x.1 = r.box_dist (Rect.point p.x p.y) :=
          fun x hx => hInv x (hrest_mem x hx)
        have hn_mem : (dd, n) ∈ queue := hqperm.mem_iff.mpr (List.mem_cons_self _ _)
        obtain ⟨hUO, hLB, hTruth⟩ := hInv _ hn_mem
        cases n with
        | item r d =>
            have hstep : nearbySteps (fun r2 _ => r2.box_dist (Rect.point p.x p.y))
                (fuel + 1) queue =
                (r, d, dd) :: nearbySteps (fun r2 _ => r2.box_dist (Rect.point p.x p.y))
                  fuel rest := by
              simp [nearbySteps, hpop]
            obtain ⟨ihP, ihC, ihT⟩ := ih rest hRestInv
            have hdd : dd = r.box_dist (Rect.point p.x p.y) := hTruth r d rfl
            rw [hstep]
            refine ⟨?_, ?_, ?_⟩
            · rw [List.pairwise_cons]
              exact ⟨fun b hb => ihC dd (fun x hx => hqmin x (hrest_mem x hx)) b hb, ihP⟩
            · intro c hc y hy
              rcases List.mem_cons.mp hy with h3 | h3
              · rw [h3]
                exact hc _ hn_mem
              · exact ihC c (fun x hx => hc x (hrest_mem x hx)) y h3
            · intro y hy
              rcases List.mem_cons.mp hy with h3 | h3
              · rw [h3]
                exact hdd
              · exact ihT y h3
        | parent pr ns =>
            have hstep : nearbySteps (fun r2 _ => r2.box_dist (Rect.point p.x p.y))
                (fuel + 1) queue =
                nearbySteps (fun r2 _ => r2.box_dist (Rect.point p.x p.y)) fuel
                  (rest ++ ns.map fun n2 =>
                    (nearbyKey (fun r2 _ => r2.box_dist (Rect.point p.x p.y)) n2, n2)) := by
              simp [nearbySteps, hpop]
            have hUOp : pr = unionRect ns ∧ UnionOkL ns := by
              simpa [UnionOkN] using hUO
            have hNewInv : ∀ x ∈ rest ++ ns.map (fun n2 =>
                (nearbyKey (fun r2 _ => r2.box_dist (Rect.point p.x p.y)) n2, n2)),
                UnionOkN x.2 ∧
                x.1 ≤ (Node.rect x.2).box_dist (Rect.point p.x p.y) ∧
                ∀ r d, x.2 = Node.item r d → x.1 = r.box_dist (Rect.point p.x p.y) := by
              intro x hx
              rcases List.mem_append.mp hx with h3 | h3
              · exact hRestInv x h3
              · obtain ⟨n2, hn2, rfl⟩ := List.mem_map.mp h3
                refine ⟨unionOkL_mem hUOp.2 hn2, ?_, ?_⟩
                · show nearbyKey (fun r2 _ => r2.box_dist (Rect.point p.x p.y)) n2 ≤
                      (Node.rect n2).box_dist (Rect.point p.x p.y)
                  rw [nearbyKey_box]
                · intro r d hitem
                  have hn2i : n2 = Node.item r d := hitem
                  show nearbyKey (fun r2 _ => r2.box_dist (Rect.point p.x p.y)) n2 =
                      r.box_dist (Rect.point p.x p.y)
                  rw [nearbyKey_box, hn2i]
                  simp [Node.rect]
            obtain ⟨ihP, ihC, ihT⟩ := ih _ hNewInv
            rw [hstep]
            refine ⟨ihP, ?_, ihT⟩
            intro c hc y hy
            refine ihC c ?_ y hy
            intro x hx
            rcases List.mem_append.mp hx with h3 | h3
            · exact hc x (hrest_mem x h3)
            · obtain ⟨n2, hn2, rfl⟩ := List.mem_map.mp h3
              have hmono : pr.box_dist (Rect.point p.x p.y) ≤
                  (Node.rect n2).box_dist (Rect.point p.x p.y) := by
                refine box_dist_point_mono p ?_
                rw [hUOp.1]
                exact unionRect_holds hn2
              have hddpr : dd ≤ pr.box_dist (Rect.point p.x p.y) := by
                simpa [Node.rect] using hLB
              have hcdd : c ≤ dd := hc _ hn_mem
              show c ≤ nearbyKey (fun r2 _ => r2.box_dist (Rect.point p.x p.y)) n2
              rw [nearbyKey_box]
              linarith

/-! The claims. -/

/-- C1 (corrected): the leaf scan of `Parent::remove` compares only the
payload, never the rect, so removal with a different rect is not guaranteed
to miss.  What holds is: removing a payload that occurs on no entry returns
nothing and leaves the tree completely unchanged, whatever rect is passed. -/
theorem claim_C1 {T : Type} [DecidableEq T] (t : RTree T) (r : Rect) (d : T)
    (hfresh : ∀ e ∈ entriesOfTree t, e.2 ≠ d) :
    (t.remove r d).2 = none ∧ (t.remove r d).1 = t := by
  obtain ⟨root, tlen, theight⟩ := t
  cases root with
  | none => exact ⟨rfl, rfl⟩
  | some rn =>
      cases rn with
      | item a b => exact ⟨rfl, rfl⟩
      | parent rect ns =>
          have hnone : (removeP r d theight rect ns).2.2.1 = none :=
            removeP_fresh r d theight rect ns fun e he =>
              hfresh e (by simpa [entriesOfTree, entriesN] using he)
          obtain ⟨hpair, _, _⟩ := removeP_none r d theight rect ns hnone
          have hx : (removeP r d theight rect ns).1.1 = rect := by rw [hpair]
          have hy : (removeP r d theight rect ns).1.2 = ns := by rw [hpair]
          simp only [RTree.remove, hnone]
          rw [hx, hy]
          exact ⟨by first | rfl | trivial, by first | rfl | trivial⟩

theorem claim_C1_witness :
    ((RTree.empty : RTree ℕ).remove (Rect.point 1 1) 1).2 = none ∧
      ((RTree.empty : RTree ℕ).remove (Rect.point 1 1) 1).1 = RTree.empty :=
  claim_C1 RTree.empty (Rect.point 1 1) 1 fun e he => by
    simp [entriesOfTree, RTree.empty] at he

theorem claim_C1_cex :
    (scenD.remove (Rect.point 1 1) 1).2 = some (Rect.point 0 0, 1) ∧
      (scenD.remove (Rect.point 1 1) 1).1.len = 0 := by
  have hstep : scenD.remove (Rect.point 1 1) 1 =
      (⟨none, 0, 0⟩, some (⟨⟨0, 0⟩, ⟨0, 0⟩⟩, 1)) := by
    rw [show scenD = ⟨some (Node.parent ⟨⟨0, 0⟩, ⟨0, 0⟩⟩
      [Node.item ⟨⟨0, 0⟩, ⟨0, 0⟩⟩ 1]), 1, 0⟩ from rfl]
    simp only [RTree.remove, removeP]
    rfl
  rw [hstep]
  exact ⟨rfl, rfl⟩

/-- C2 (confirmed): on every tree reachable by the public interface, every
parent's rect is the min/max union of its children's rects, contains each
child's rect, and each of its four sides is attained by some child. -/
theorem claim_C2 {T : Type} [DecidableEq T] {t : RTree T} {r : Rect}
    {ns : List (Node T)} (hreach : Reachable t) (hp : ParentIn t r ns) :
    r = unionRect ns ∧ (∀ c ∈ ns, r.holds c.rect) ∧
      (∃ c ∈ ns, (Node.rect c).min.x = r.min.x) ∧
      (∃ c ∈ ns, (Node.rect c).min.y = r.min.y) ∧
      (∃ c ∈ ns, (Node.rect c).max.x = r.max.x) ∧
      (∃ c ∈ ns, (Node.rect c).max.y = r.max.y) := by
  obtain ⟨k, hall, hu, hne, hmax⟩ := parentIn_wf (reachable_wf hreach) hp
  obtain ⟨a1, a2, a3, a4⟩ := unionRect_attained hne
  subst hu
  exact ⟨rfl, fun c hc => unionRect_holds hc, a1, a2, a3, a4⟩

theorem claim_C2_witness :
    (⟨⟨0, 0⟩, ⟨0, 0⟩⟩ : Rect) = unionRect [Node.item (⟨⟨0, 0⟩, ⟨0, 0⟩⟩ : Rect) (1 : ℕ)] ∧
      (∀ c ∈ [Node.item (⟨⟨0, 0⟩, ⟨0, 0⟩⟩ : Rect) (1 : ℕ)],
        (⟨⟨0, 0⟩, ⟨0, 0⟩⟩ : Rect).holds c.rect) ∧
      (∃ c ∈ [Node.item (⟨⟨0, 0⟩, ⟨0, 0⟩⟩ : Rect) (1 : ℕ)],
        (Node.rect c).min.x = (⟨⟨0, 0⟩, ⟨0, 0⟩⟩ : Rect).min.x) ∧
      (∃ c ∈ [Node.item (⟨⟨0, 0⟩, ⟨0, 0⟩⟩ : Rect) (1 : ℕ)],
        (Node.rect c).min.y = (⟨⟨0, 0⟩, ⟨0, 0⟩⟩ : Rect).min.y) ∧
      (∃ c ∈ [Node.item (⟨⟨0, 0⟩, ⟨0, 0⟩⟩ : Rect) (1 : ℕ)],
        (Node.rect c).max.x = (⟨⟨0, 0⟩, ⟨0, 0⟩⟩ : Rect).max.x) ∧
      (∃ c ∈ [Node.item (⟨⟨0, 0⟩, ⟨0, 0⟩⟩ : Rect) (1 : ℕ)],
        (Node.rect c).max.y = (⟨⟨0, 0⟩, ⟨0, 0⟩⟩ : Rect).max.y) :=
  claim_C2 (Reachable.insert (Rect.point 0 0) 1 Reachable.empty) (ParentIn.root rfl)

/-- C3 (confirmed): on every reachable tree, `len()` equals the number of
records the scan iterator yields, which is the number of entries reachable
from the root. -/
theorem claim_C3 {T : Type} [DecidableEq T] {t : RTree T} (hreach : Reachable t) :
    t.len = (scanList t).length := by
  have hwf := reachable_wf hreach
  rw [scan_eq_entries hwf]
  obtain ⟨root, tlen, theight⟩ := t
  cases root with
  | none =>
      obtain ⟨_, h2⟩ := hwf
      simpa [RTree.len, entriesOfTree] using h2
  | some rn =>
      cases rn with
      | item a b => exact absurd hwf (by simp [WfTree])
      | parent rect ns =>
          have h6 : tlen = (entriesL ns).length := hwf.2.2.2.2.2
          simpa [RTree.len, entriesOfTree, entriesN] using h6

theorem claim_C3_witness : scenD.len = (scanList scenD).length :=
  claim_C3 (Reachable.insert (Rect.point 0 0) 1 Reachable.empty)

/-- C4 (confirmed): on every reachable tree, every non-root parent has
between MIN_ITEMS and MAX_ITEMS children; the root parent, when present,
has between 1 and MAX_ITEMS children. -/
theorem claim_C4 {T : Type} [DecidableEq T] {t : RTree T} (hreach : Reachable t) :
    (∀ r ns, t.root = some (Node.parent r ns) →
      1 ≤ ns.length ∧ ns.length ≤ MAX_ITEMS) ∧
    (∀ r ns r2 ns2, ParentIn t r ns → Node.parent r2 ns2 ∈ ns →
      MIN_ITEMS ≤ ns2.length ∧ ns2.length ≤ MAX_ITEMS) := by
  have hwf := reachable_wf hreach
  constructor
  · intro r ns hroot
    obtain ⟨k, hall, hu, hne, hmax⟩ := parentIn_wf hwf (ParentIn.root hroot)
    refine ⟨List.length_pos.mpr hne, ?_⟩
    simp only [MAX_ITEMS] at hmax ⊢
    omega
  · intro r ns r2 ns2 hp hmem
    obtain ⟨k, hall, _, _, _⟩ := parentIn_wf hwf hp
    have hw := hall _ hmem
    cases k with
    | zero => exact absurd hw (by simp [WfChild])
    | succ k' =>
        obtain ⟨_, h2, h3, _⟩ := hw
        refine ⟨h2, ?_⟩
        simp only [MAX_ITEMS] at h3 ⊢
        omega

theorem claim_C4_witness :
    (∀ r ns, scenD.root = some (Node.parent r ns) →
      1 ≤ ns.length ∧ ns.length ≤ MAX_ITEMS) ∧
    (∀ r ns r2 ns2, ParentIn scenD r ns → Node.parent r2 ns2 ∈ ns →
      MIN_ITEMS ≤ ns2.length ∧ ns2.length ≤ MAX_ITEMS) :=
  claim_C4 (Reachable.insert (Rect.point 0 0) 1 Reachable.empty)

/-- C6 (confirmed): on every reachable tree, the search yields exactly the
entries whose rect intersects the query under the closed-interval test; in
particular, on the Scenario F tree the edge-touching query yields the single
entry. -/
theorem claim_C6 {T : Type} [DecidableEq T] {t : RTree T} (q : Rect)
    (hreach : Reachable t) :
    searchList t q = (entriesOfTree t).filter (fun e => e.1.intersects q) ∧
      searchList scenF scenFq = [(⟨⟨0, 0⟩, ⟨1, 1⟩⟩, 10)] := by
  refine ⟨?_, by decide⟩
  have hwf := reachable_wf hreach
  rw [search_eq_flat]
  obtain ⟨root, tlen, theight⟩ := t
  cases root with
  | none => rfl
  | some rn =>
      cases rn with
      | item a b => exact absurd hwf (by simp [WfTree])
      | parent rect ns =>
          have hall : ∀ n ∈ ns, WfChild theight n := hwf.2.2.2.2.1
          show searchFlatL q ns = _
          rw [(searchFlat_filter q).2 ns theight hall]
          simp [entriesOfTree, entriesN]

theorem claim_C6_witness :
    searchList scenF scenFq =
        (entriesOfTree scenF).filter (fun e => e.1.intersects scenFq) ∧
      searchList scenF scenFq = [(⟨⟨0, 0⟩, ⟨1, 1⟩⟩, 10)] :=
  claim_C6 scenFq (Reachable.insert ⟨⟨0, 0⟩, ⟨1, 1⟩⟩ 10 Reachable.empty)

/-- C7 (confirmed): the nearby queue pops the entry with the smallest stored
distance — std `BinaryHeap` sifts with the `<=`/`>=` operators, which
dispatch to `NearbyItem`'s reversed `PartialOrd` — so with the squared box
distance to a fixed point the yields of every reachable tree come in
nondecreasing distance order, each stored distance being the yielded rect's
own box distance; on the Scenario E tree the yielded distances are
0, 9, 16, 100. -/
theorem claim_C7 {T : Type} [DecidableEq T] {t : RTree T} (hreach : Reachable t)
    (p : Point) :
    ((nearbyList t (fun r _ => r.box_dist (Rect.point p.x p.y))).map
        (fun e => e.2.2)).Pairwise (· ≤ ·) ∧
      (∀ e ∈ nearbyList t (fun r _ => r.box_dist (Rect.point p.x p.y)),
        e.2.2 = e.1.box_dist (Rect.point p.x p.y)) ∧
      (nearbyList scenE scenEDist).map (fun e => e.2.2) = [0, 9, 16, 100] := by
  have hwf := reachable_wf hreach
  have hconc : (nearbyList scenE scenEDist).map (fun e => e.2.2) = [0, 9, 16, 100] := by
    norm_num [nearbyList, nearbySteps, popMinQ, nearbyKey, scenEDist, Rect.box_dist,
      fmin, fmax, scenE, RTree.insert, RTree.empty, insertP, queueMeasure, nodeSize,
      listSize, Rect.point, Rect.expand, MAX_ITEMS]
  obtain ⟨root, tlen, theight⟩ := t
  cases root with
  | none => exact ⟨by simp [nearbyList], by simp [nearbyList], hconc⟩
  | some rn =>
      have hUO : UnionOkN rn := wfTree_unionOk hwf rfl
      have hInv : ∀ x ∈ [((0 : ℚ), rn)], UnionOkN x.2 ∧
          x.1 ≤ (Node.rect x.2).box_dist (Rect.point p.x p.y) ∧
          ∀ r d, x.2 = Node.item r d → x.1 = r.box_dist (Rect.point p.x p.y) := by
        intro x hx
        obtain rfl : x = ((0 : ℚ), rn) := by simpa using hx
        refine ⟨hUO, box_dist_nonneg _ _, ?_⟩
        intro r d hitem
        exfalso
        have hrn : rn = Node.item r d := hitem
        subst hrn
        exact absurd hwf (by simp [WfTree])
      obtain ⟨hP, _, hT⟩ := nearbySteps_sorted p (queueMeasure [((0 : ℚ), rn)])
        [((0 : ℚ), rn)] hInv
      exact ⟨List.pairwise_map.mpr hP, hT, hconc⟩

theorem claim_C7_witness :
    ((nearbyList scenE (fun r _ => r.box_dist (Rect.point (0 : ℚ) (0 : ℚ)))).map
        (fun e => e.2.2)).Pairwise (· ≤ ·) ∧
      (∀ e ∈ nearbyList scenE (fun r _ => r.box_dist (Rect.point (0 : ℚ) (0 : ℚ))),
        e.2.2 = e.1.box_dist (Rect.point (0 : ℚ) (0 : ℚ))) ∧
      (nearbyList scenE scenEDist).map (fun e => e.2.2) = [0, 9, 16, 100] :=
  claim_C7 (Reachable.insert (Rect.point 6 8) 3 (Reachable.insert (Rect.point 0 4) 2
    (Reachable.insert (Rect.point 3 0) 1 (Reachable.insert (Rect.point 0 0) 0
      Reachable.empty)))) ⟨0, 0⟩

/-- C8 (corrected): insert-then-remove of the same (rect, value) restores the
length and the scanned multiset when the value's payload occurs nowhere else
and the rect is geometrically valid; with a duplicated payload the leaf scan
may remove the other entry, changing the multiset. -/
theorem claim_C8 {T : Type} [DecidableEq T] (t : RTree T) (r : Rect) (v : T)
    (hreach : Reachable t) (hvalid : r.valid)
    (hfresh : ∀ e ∈ entriesOfTree t, e.2 ≠ v) :
    ((t.insert r v).remove r v).1.len = t.len ∧
      (scanList ((t.insert r v).remove r v).1).Perm (scanList t) := by
  have hwf := reachable_wf hreach
  obtain ⟨hwf1, hlen1, hperm1⟩ := insert_wf t r v hwf
  have hmem : (r, v) ∈ entriesOfTree (t.insert r v) :=
    hperm1.mem_iff.mpr (List.mem_cons_self _ _)
  have hint : r.intersects r = true := by
    rw [intersects_iff]
    obtain ⟨h1, h2⟩ := hvalid
    exact ⟨h1, h1, h2, h2⟩
  obtain ⟨⟨ir, id⟩, hsome⟩ :=
    remove_hit (t.insert r v) r v hwf1 ⟨(r, v), hmem, rfl, hint⟩
  obtain ⟨hwf2, hspec⟩ := remove_wf (t.insert r v) r v hwf1
  obtain ⟨hid, hlen2, hperm2⟩ := hspec ir id hsome
  subst hid
  have hirv : (ir, id) ∈ entriesOfTree (t.insert r id) :=
    hperm2.mem_iff.mpr (List.mem_cons_self _ _)
  have hir : ir = r := by
    rcases List.mem_cons.mp (hperm1.mem_iff.mp hirv) with h3 | h3
    · exact congrArg Prod.fst h3
    · exact absurd rfl (hfresh _ h3)
  subst hir
  have hperm3 : (entriesOfTree ((t.insert ir id).remove ir id).1).Perm
      (entriesOfTree t) :=
    List.Perm.cons_inv (hperm2.symm.trans hperm1)
  constructor
  · simp only [RTree.len]
    omega
  · rw [scan_eq_entries hwf2, scan_eq_entries hwf]
    exact hperm3

theorem claim_C8_witness :
    (((RTree.empty : RTree ℕ).insert (Rect.point 0 0) 1).remove
        (Rect.point 0 0) 1).1.len = (RTree.empty : RTree ℕ).len ∧
      (scanList (((RTree.empty : RTree ℕ).insert (Rect.point 0 0) 1).remove
        (Rect.point 0 0) 1).1).Perm (scanList (RTree.empty : RTree ℕ)) :=
  claim_C8 RTree.empty (Rect.point 0 0) 1 Reachable.empty
    ⟨le_refl _, le_refl _⟩ fun e he => by
      simp [entriesOfTree, RTree.empty] at he

theorem claim_C8_cex :
    ¬ ((scanList ((scenD.insert (Rect.point 5 5) 1).remove (Rect.point 5 5) 1).1).Perm
        (scanList scenD)) := by
  have hstep : (scenD.insert (Rect.point 5 5) 1).remove (Rect.point 5 5) 1 =
      (⟨some (Node.parent ⟨⟨5, 5⟩, ⟨5, 5⟩⟩ [Node.item ⟨⟨5, 5⟩, ⟨5, 5⟩⟩ 1]), 1, 0⟩,
        some (⟨⟨0, 0⟩, ⟨0, 0⟩⟩, 1)) := by
    rw [show scenD.insert (Rect.point 5 5) 1 = ⟨some (Node.parent ⟨⟨0, 0⟩, ⟨5, 5⟩⟩
      [Node.item ⟨⟨0, 0⟩, ⟨0, 0⟩⟩ 1, Node.item ⟨⟨5, 5⟩, ⟨5, 5⟩⟩ 1]), 2, 0⟩ from rfl]
    simp only [RTree.remove, removeP]
    rfl
  rw [hstep]
  decide

/-- C9 (confirmed): whenever the public remove returns nothing, the tree is
returned completely unchanged — root, every node, length and height. -/
theorem claim_C9 {T : Type} [DecidableEq T] (t : RTree T) (r : Rect) (d : T)
    (h : (t.remove r d).2 = none) : (t.remove r d).1 = t :=
  remove_miss t r d h

theorem claim_C9_witness :
    ((RTree.empty : RTree ℕ).remove (Rect.point 0 0) 2).1 = RTree.empty :=
  claim_C9 RTree.empty (Rect.point 0 0) 2 rfl

/-- C10 (confirmed): on every tree and every query, the lazy search iterator
yields exactly the records the recursive `search_flat` collector appends, in
the same order. -/
theorem claim_C10 {T : Type} (t : RTree T) (q : Rect) :
    searchList t q = searchFlatTree t q :=
  search_eq_flat t q

/-- C5 (confirmed): on a full parent the partition loop keeps, in order of
the running index, exactly the children whose distance from the low edge of
the largest axis is strictly below their distance from the high edge; every
other child, ties included, is swap-removed to the right.  If the left side
then has fewer than MIN_ITEMS children, the right side is sorted ascending
by min on the axis and its largest elements move left until the left holds
MIN_ITEMS, and symmetrically (sorting the left by max on the axis) when the
right side is short. -/
theorem claim_C5 {T : Type} (rect : Rect) (ns : List (Node T))
    (h32 : ns.length = MAX_ITEMS) :
    (splitPart rect rect.largest_axis [] ns []).1.Perm
        (ns.filter fun c => decide (staysLeft rect rect.largest_axis c)) ∧
      (splitPart rect rect.largest_axis [] ns []).2.Perm
        (ns.filter fun c => !decide (staysLeft rect rect.largest_axis c)) ∧
      ((splitPart rect rect.largest_axis [] ns []).1.length < MIN_ITEMS →
        (splitLAES rect ns).1.2.length = MIN_ITEMS ∧
        (sortByKey (fun n => n.rect.min.on rect.largest_axis)
            (splitPart rect rect.largest_axis [] ns []).2).Pairwise
          (fun a b =>
            a.rect.min.on rect.largest_axis ≤ b.rect.min.on rect.largest_axis) ∧
        (splitLAES rect ns).1.2.Perm
          ((splitPart rect rect.largest_axis [] ns []).1 ++
            (sortByKey (fun n => n.rect.min.on rect.largest_axis)
              (splitPart rect rect.largest_axis [] ns []).2).drop
              (MAX_ITEMS - MIN_ITEMS)) ∧
        (splitLAES rect ns).2.2.Perm
          ((sortByKey (fun n => n.rect.min.on rect.largest_axis)
            (splitPart rect rect.largest_axis [] ns []).2).take
            (MAX_ITEMS - MIN_ITEMS))) ∧
      (¬ (splitPart rect rect.largest_axis [] ns []).1.length < MIN_ITEMS →
        (splitPart rect rect.largest_axis [] ns []).2.length < MIN_ITEMS →
        (splitLAES rect ns).2.2.length = MIN_ITEMS ∧
        (sortByKey (fun n => n.rect.max.on rect.largest_axis)
            (splitPart rect rect.largest_axis [] ns []).1).Pairwise
          (fun a b =>
            a.rect.max.on rect.largest_axis ≤ b.rect.max.on rect.largest_axis) ∧
        (splitLAES rect ns).2.2.Perm
          ((splitPart rect rect.largest_axis [] ns []).2 ++
            (sortByKey (fun n => n.rect.max.on rect.largest_axis)
              (splitPart rect rect.largest_axis [] ns []).1).drop
              (MAX_ITEMS - MIN_ITEMS)) ∧
        (splitLAES rect ns).1.2.Perm
          ((sortByKey (fun n => n.rect.max.on rect.largest_axis)
            (splitPart rect rect.largest_axis [] ns []).1).take
            (MAX_ITEMS - MIN_ITEMS))) ∧
      (¬ (splitPart rect rect.largest_axis [] ns []).1.length < MIN_ITEMS →
        ¬ (splitPart rect rect.largest_axis [] ns []).2.length < MIN_ITEMS →
        (splitLAES rect ns).1.2.Perm (splitPart rect rect.largest_axis [] ns []).1 ∧
        (splitLAES rect ns).2.2.Perm (splitPart rect rect.largest_axis [] ns []).2) := by
  obtain ⟨hf1, hf2⟩ := splitPart_main rect rect.largest_axis ns
  have hperm0 := splitPart_union_perm rect rect.largest_axis ns
  have hsum : (splitPart rect rect.largest_axis [] ns []).1.length +
      (splitPart rect rect.largest_axis [] ns []).2.length = MAX_ITEMS := by
    have := hperm0.length_eq
    simp only [List.length_append] at this
    omega
  refine ⟨hf1, hf2, ?_, ?_, ?_⟩
  · intro h1
    simp only [splitLAES, if_pos h1]
    set P := splitPart rect rect.largest_axis [] ns [] with hP
    set S := sortByKey (fun n => n.rect.min.on rect.largest_axis) P.2 with hS
    have hsplen : S.length = P.2.length := (sortByKey_perm _ _).length_eq
    have hsum2 : MIN_ITEMS ≤ P.1.length + S.length := by
      simp only [MIN_ITEMS, MAX_ITEMS] at hsum ⊢
      omega
    have hlen : (popPush P.1 S).1.length = MIN_ITEMS := by
      rw [popPush_len _ _ hsum2]
      omega
    obtain ⟨m, hm1, hm2⟩ := popPush_shape P.1 S
    have hmlen := congrArg List.length hm1
    simp only [List.length_append, List.length_reverse, List.length_drop] at hmlen
    have hj : S.length - m = MAX_ITEMS - MIN_ITEMS := by
      simp only [MIN_ITEMS, MAX_ITEMS] at hsum hlen hmlen ⊢
      omega
    refine ⟨?_, sortByKey_sorted _ _, ?_, ?_⟩
    · rw [(sortByKey_perm _ _).length_eq, hlen]
    · refine (sortByKey_perm _ _).trans ?_
      rw [hm1, hj]
      exact List.Perm.append_left P.1 (List.reverse_perm _)
    · refine (sortByKey_perm _ _).trans ?_
      rw [hm2, hj]
  · intro h1 h2
    simp only [splitLAES, if_neg h1, if_pos h2]
    set P := splitPart rect rect.largest_axis [] ns [] with hP
    set S := sortByKey (fun n => n.rect.max.on rect.largest_axis) P.1 with hS
    have hsplen : S.length = P.1.length := (sortByKey_perm _ _).length_eq
    have hsum2 : MIN_ITEMS ≤ P.2.length + S.length := by
      simp only [MIN_ITEMS, MAX_ITEMS] at hsum ⊢
      omega
    have hlen : (popPush P.2 S).1.length = MIN_ITEMS := by
      rw [popPush_len _ _ hsum2]
      omega
    obtain ⟨m, hm1, hm2⟩ := popPush_shape P.2 S
    have hmlen := congrArg List.length hm1
    simp only [List.length_append, List.length_reverse, List.length_drop] at hmlen
    have hj : S.length - m = MAX_ITEMS - MIN_ITEMS := by
      simp only [MIN_ITEMS, MAX_ITEMS] at hsum hlen hmlen ⊢
      omega
    refine ⟨?_, sortByKey_sorted _ _, ?_, ?_⟩
    · rw [(sortByKey_perm _ _).length_eq, hlen]
    · refine (sortByKey_perm _ _).trans ?_
      rw [hm1, hj]
      exact List.Perm.append_left P.2 (List.reverse_perm _)
    · refine (sortByKey_perm _ _).trans ?_
      rw [hm2, hj]
  · intro h1 h2
    simp only [splitLAES, if_neg h1, if_neg h2]
    exact ⟨sortByKey_perm _ _, sortByKey_perm _ _⟩

theorem claim_C5_witness :
    (splitPart (⟨⟨0, 0⟩, ⟨31, 31⟩⟩ : Rect)
        (Rect.largest_axis ⟨⟨0, 0⟩, ⟨31, 31⟩⟩) [] split32 []).1.Perm
      (split32.filter fun c =>
        decide (staysLeft ⟨⟨0, 0⟩, ⟨31, 31⟩⟩ (Rect.largest_axis ⟨⟨0, 0⟩, ⟨31, 31⟩⟩) c)) :=
  (claim_C5 ⟨⟨0, 0⟩, ⟨31, 31⟩⟩ split32 (by decide)).1
